import Mathlib

/-!
Verification of the hybrid-search repository core algorithms.

Strings are modelled at the level of Unicode scalar values: a Rust `String`
becomes a `List Char`, so "codepoint count" is `List.length` and slicing is
`List.take` / `List.drop`.  Floating-point scores (`f64`) are modelled as
exact rationals `ℚ`; all score expressions appearing in the code are sums
of reciprocals `1/(60 + rank + 1)` whose comparisons have margins far above
any `f64` rounding error, so the rational model decides the same
comparisons as the compiled program.  Rust `HashMap`s whose iteration
order feeds a *stable* sort are modelled as insertion-ordered association
lists; every property proved below is independent of the iteration order
chosen (scores of distinct keys compared below are always distinct).
-/

set_option autoImplicit false

namespace HybridSearch

/-- Rust `char::is_whitespace`: the Unicode `White_Space` property,
used by `str::trim` in `chunker.rs`. -/
def rustIsWhitespace (c : Char) : Bool :=
  let n := c.toNat
  (0x09 ≤ n && n ≤ 0x0D) || n == 0x20 || n == 0x85 || n == 0xA0 ||
    n == 0x1680 || (0x2000 ≤ n && n ≤ 0x200A) || n == 0x2028 ||
    n == 0x2029 || n == 0x202F || n == 0x205F || n == 0x3000

/-- Rust `str::trim`: strip leading and trailing whitespace codepoints. -/
def trimChars (l : List Char) : List Char :=
  ((l.dropWhile rustIsWhitespace).reverse.dropWhile rustIsWhitespace).reverse

/-- The window step of `chunk_text` (`chunker.rs` lines 27–31):
`chunk_size - overlap` when `chunk_size > overlap`, else `chunk_size`. -/
def chunkStep (chunk_size overlap : Nat) : Nat :=
  if overlap < chunk_size then chunk_size - overlap else chunk_size

/-- The `while start < total` loop of `chunk_text` (`chunker.rs` lines 17–33).
`fuel` bounds the number of loop iterations that *continue*; `none` means the
fuel was exhausted, so `(∀ fuel, … = none)` states that the Rust loop never
terminates on that input. -/
def chunkLoop (chars : List Char) (chunk_size overlap : Nat) :
    Nat → Nat → Option (List (List Char))
  | fuel, start =>
    if start < chars.length then
      let e := min (start + chunk_size) chars.length
      let w := trimChars ((chars.drop start).take (e - start))
      if chars.length ≤ e then
        some [w]
      else
        match fuel with
        | 0 => none
        | fuel' + 1 =>
          (chunkLoop chars chunk_size overlap fuel'
              (start + chunkStep chunk_size overlap)).map (w :: ·)
    else
      some []

/-- `chunk_text` from `chunker.rs`: split text into trimmed windows of
`chunk_size` codepoints, stepping by `chunkStep`, dropping empty chunks. -/
def chunk_text (text : List Char) (chunk_size overlap : Nat) (fuel : Nat) :
    Option (List (List Char)) :=
  if text.isEmpty then some []
  else if text.length ≤ chunk_size then some [text]
  else (chunkLoop text chunk_size overlap fuel 0).map
    (List.filter (fun c => !c.isEmpty))

/-- `chunk_text text cs ov` diverges: the loop runs out of any amount of fuel. -/
def chunkDiverges (text : List Char) (chunk_size overlap : Nat) : Prop :=
  ∀ fuel, chunk_text text chunk_size overlap fuel = none

/-- Reassemble chunks "after accounting for the overlap of `overlap`
codepoints between consecutive chunks": keep the first chunk whole and drop
the first `overlap` codepoints of every later chunk before concatenating. -/
def glueChunks (overlap : Nat) : List (List Char) → List Char
  | [] => []
  | c :: rest => c ++ (rest.map (List.drop overlap)).flatten

/-- `truncate_snippet` from `common/types.rs`: keep the text when its
codepoint count is within `max_chars`, else truncate and append `...`. -/
def truncate_snippet (text : List Char) (max_chars : Nat) : List Char :=
  if text.length ≤ max_chars then text
  else text.take max_chars ++ ['.', '.', '.']

/-- Split on `'\n'` (every segment, including a trailing empty one). -/
def splitNl (l : List Char) : List (List Char) :=
  l.foldr
    (fun c acc =>
      if c = '\n' then [] :: acc
      else
        match acc with
        | [] => [[c]]
        | a :: as => (c :: a) :: as)
    [[]]

/-- Strip one trailing `'\r'`, as Rust `str::lines` does for `\r\n` endings. -/
def stripCR (l : List Char) : List Char :=
  if l.getLast? = some '\r' then l.dropLast else l

/-- Rust `str::lines`: split on `'\n'`, strip a trailing `'\r'` from each
line, and do not yield a final empty line when the text ends with `'\n'`. -/
def rustLines (l : List Char) : List (List Char) :=
  if l.isEmpty then []
  else
    let parts := splitNl l
    let parts := if l.getLast? = some '\n' then parts.dropLast else parts
    parts.map stripCR

/-- The line scan of `extract_title` (`chunker.rs` lines 43–51). -/
def findTitle (fileLines : List (List Char)) : Option (List Char) :=
  match fileLines with
  | [] => none
  | line :: rest =>
    let t := trimChars line
    if t.head? = some '#' then
      some (trimChars (t.dropWhile (fun c => c = '#')))
    else if !t.isEmpty then
      some (truncate_snippet t 100)
    else
      findTitle rest

/-- `extract_title` from `chunker.rs`: first `#`-heading stripped of its
leading `#`s and whitespace, else the first non-empty line truncated to 100
codepoints, else the fallback file name. -/
def extract_title (text fallback : List Char) : List Char :=
  (findTitle (rustLines text)).getD fallback

/-- `SearchResult` from `common/types.rs` (scores as exact rationals). -/
structure SearchResult where
  chunk_id : String
  score : ℚ
  title : String
  source_path : String
  source_type : String
  snippet : String
deriving DecidableEq, Repr

/-- The RRF contribution of zero-based rank `rank` with constant `k = 60`
(`hybrid.rs` line 64): `1.0 / (k + rank + 1.0)`. -/
def rrfScore (rank : Nat) : ℚ :=
  1 / (60 + (rank : ℚ) + 1)

/-- `*scores.entry(id).or_insert(0.0) += v` on an insertion-ordered
association list: add to the existing entry, or append `(id, 0 + v)`. -/
def addScore (m : List (String × ℚ)) (id : String) (v : ℚ) :
    List (String × ℚ) :=
  match m with
  | [] => [(id, 0 + v)]
  | (k, s) :: rest =>
    if k = id then (k, s + v) :: rest else (k, s) :: addScore rest id v

/-- One scoring pass of `rrf_merge` (`hybrid.rs` lines 63–69 and 71–77):
fold a ranked list into the score map, `rank` counting from the given
start value. -/
def scoreLoop : List SearchResult → Nat → List (String × ℚ) →
    List (String × ℚ)
  | [], _, m => m
  | r :: rest, rank, m =>
    scoreLoop rest (rank + 1) (addScore m r.chunk_id (rrfScore rank))

/-- `result_map.entry(id).or_insert_with(|| result.clone())`: keep the
first inserted value for a key, append new keys. -/
def insertAbsent (m : List (String × SearchResult)) (id : String)
    (r : SearchResult) : List (String × SearchResult) :=
  match m with
  | [] => [(id, r)]
  | (k, v) :: rest =>
    if k = id then (k, v) :: rest else (k, v) :: insertAbsent rest id r

/-- One metadata pass of `rrf_merge`: fold a ranked list into the result
map, keeping the first occurrence of each `chunk_id`. -/
def resultLoop : List SearchResult → List (String × SearchResult) →
    List (String × SearchResult)
  | [], m => m
  | r :: rest, m => resultLoop rest (insertAbsent m r.chunk_id r)

/-- `result_map.remove(&id)`: the removed value (first entry with the key)
together with the remaining map. -/
def removeEntry (m : List (String × SearchResult)) (id : String) :
    Option SearchResult × List (String × SearchResult) :=
  match m with
  | [] => (none, [])
  | (k, v) :: rest =>
    if k = id then (some v, rest)
    else
      let p := removeEntry rest id
      (p.1, (k, v) :: p.2)

/-- First value stored under a key in an association list. -/
def lookupKey {α : Type} (m : List (String × α)) (id : String) : Option α :=
  (m.find? (fun p => p.1 = id)).map (·.2)

/-- Stable insertion into a list sorted by score descending: an element is
placed before the first strictly smaller score, so equal scores keep their
relative order — exactly the tie behavior of Rust's stable `sort_by` with
`b.partial_cmp(&a)` (no NaN arises for these rational scores). -/
def insertDesc (x : String × ℚ) : List (String × ℚ) → List (String × ℚ)
  | [] => [x]
  | y :: ys => if y.2 ≤ x.2 then x :: y :: ys else y :: insertDesc x ys

/-- Stable sort by fused score descending (`hybrid.rs` line 80). -/
def sortByScoreDesc (l : List (String × ℚ)) : List (String × ℚ) :=
  l.foldr insertDesc []

/-- The final `take(top_k).filter_map(...)` of `rrf_merge`: look each
scored id up in the result map (removing it), overwriting `score` with the
fused score. -/
def takeMerge : List (String × ℚ) → List (String × SearchResult) →
    List SearchResult
  | [], _ => []
  | (id, sc) :: rest, m =>
    match removeEntry m id with
    | (some r, m') => { r with score := sc } :: takeMerge rest m'
    | (none, m') => takeMerge rest m'

/-- `rrf_merge` from `hybrid.rs` lines 53–92 (the copy in `ingest.rs`
lines 340–382 is textually identical): score both ranked lists with
`k = 60`, collect first-occurrence metadata, sort by fused score
descending, truncate to `top_k`, and rebuild results with fused scores. -/
def rrf_merge (vector_results bm25_results : List SearchResult)
    (top_k : Nat) : List SearchResult :=
  let scores := scoreLoop bm25_results 0 (scoreLoop vector_results 0 [])
  let result_map := resultLoop bm25_results (resultLoop vector_results [])
  let scored := sortByScoreDesc scores
  takeMerge (scored.take top_k) result_map

/-- A JSON value (numbers as integers; no numeric JSON is inspected by the
code under verification). -/
inductive Json where
  | null : Json
  | bool : Bool → Json
  | num : Int → Json
  | str : String → Json
  | arr : List Json → Json
  | obj : List (String × Json) → Json

/-- `serde_json::Value::get(key)` on an object: first field with the key;
`none` for non-objects and missing keys. -/
def Json.get : Json → String → Option Json
  | Json.obj fields, key => lookupKey fields key
  | _, _ => none

/-- `Value::as_str`. -/
def Json.asStr : Json → Option String
  | Json.str s => some s
  | _ => none

/-- `JsonRpcError` from `mcp/protocol.rs`. -/
structure JsonRpcError where
  code : Int
  message : String
deriving DecidableEq, Repr

/-- `JsonRpcResponse` from `mcp/protocol.rs` (the constant `jsonrpc: "2.0"`
field is omitted from the model). -/
structure JsonRpcResponse where
  id : Option Json
  result : Option Json
  error : Option JsonRpcError

/-- `JsonRpcResponse::success`. -/
def JsonRpcResponse.success (id : Option Json) (result : Json) :
    JsonRpcResponse :=
  ⟨id, some result, none⟩

/-- `JsonRpcResponse::error`. -/
def JsonRpcResponse.mkError (id : Option Json) (code : Int)
    (message : String) : JsonRpcResponse :=
  ⟨id, none, some ⟨code, message⟩⟩

/-- `METHOD_NOT_FOUND` from `mcp/protocol.rs`. -/
def METHOD_NOT_FOUND : Int := -32601

/-- `INVALID_PARAMS` from `mcp/protocol.rs`. -/
def INVALID_PARAMS : Int := -32602

/-- `ToolResultContent` from `mcp/tools.rs`. -/
structure ToolResultContent where
  content_type : String
  text : String
deriving DecidableEq, Repr

/-- `ToolResult` from `mcp/tools.rs`. -/
structure ToolResult where
  content : List ToolResultContent
  is_error : Bool
deriving DecidableEq, Repr

/-- `ToolResult::text`. -/
def ToolResult.text (text : String) : ToolResult :=
  ⟨[⟨"text", text⟩], false⟩

/-- `ToolResult::error`. -/
def ToolResult.mkError (text : String) : ToolResult :=
  ⟨[⟨"text", text⟩], true⟩

/-- `ToolName` from `mcp/tools.rs`. -/
inductive ToolName where
  | Search : ToolName
  | Get : ToolName
  | GetProjectInfo : ToolName
deriving DecidableEq, Repr

/-- `ToolName::parse` from `mcp/tools.rs` lines 54–63. -/
def ToolName.parse (name : String) : Option ToolName :=
  if name = "search" then some ToolName.Search
  else if name = "get" then some ToolName.Get
  else if name = "get_project_info" then some ToolName.GetProjectInfo
  else none

/-- Serde serialization of `ToolResult` (`#[serde(rename = "isError")]`,
content items `{type, text}`): the `json!(tool_result)` envelope. -/
def toolResultToJson (tr : ToolResult) : Json :=
  Json.obj
    [("content",
      Json.arr (tr.content.map (fun c =>
        Json.obj [("type", Json.str c.content_type),
                  ("text", Json.str c.text)]))),
     ("isError", Json.bool tr.is_error)]

/-- `handle_tools_call` from `mcp/server.rs` lines 64–102.  Tool execution
(`execute_search` / `execute_get`, which perform network and index I/O) is
abstracted as `exec`, mapping the parsed tool and its `arguments` value to
either a `ToolResult` or an execution error message.  The source `match`
on `ToolName::parse` has no arm for `GetProjectInfo` (the registry parses
the name but `handle_tools_call` as written does not handle it), so that
case has no defined behavior and is modelled as `none`; every behavior the
source defines is `some response`. -/
def handle_tools_call (exec : ToolName → Json → Except String ToolResult)
    (id : Option Json) (params : Option Json) : Option JsonRpcResponse :=
  match params with
  | none => some (JsonRpcResponse.mkError id INVALID_PARAMS "Missing params")
  | some p =>
    let tool_name := ((p.get "name").bind Json.asStr).getD ""
    let arguments := (p.get "arguments").getD (Json.obj [])
    match ToolName.parse tool_name with
    | some ToolName.Search =>
      some (match exec ToolName.Search arguments with
        | Except.ok tr => JsonRpcResponse.success id (toolResultToJson tr)
        | Except.error e =>
          JsonRpcResponse.success id
            (toolResultToJson (ToolResult.mkError ("Error: " ++ e))))
    | some ToolName.Get =>
      some (match exec ToolName.Get arguments with
        | Except.ok tr => JsonRpcResponse.success id (toolResultToJson tr)
        | Except.error e =>
          JsonRpcResponse.success id
            (toolResultToJson (ToolResult.mkError ("Error: " ++ e))))
    | some ToolName.GetProjectInfo => none
    | none =>
      some (JsonRpcResponse.mkError id METHOD_NOT_FOUND
        ("Unknown tool: " ++ tool_name))

/-- `ChunkPayload` from `common/types.rs` (chunk text and title as
codepoint lists). -/
structure ChunkPayload where
  chunk_id : String
  source_path : String
  source_type : String
  title : List Char
  chunk_index : Nat
  text : List Char
  updated_at : String
deriving DecidableEq, Repr

/-- `convert_with_markitdown` (`ingest.rs` lines 232–250), abstracted over
the child-process outcome `raw` (stderr/exit-failure becomes `.error`):
empty-after-trim stdout is rejected. -/
def convert_with_markitdown (raw : Except Unit (List Char)) :
    Except Unit (List Char) :=
  match raw with
  | Except.error e => Except.error e
  | Except.ok text =>
    if (trimChars text).isEmpty then Except.error () else Except.ok text

/-- `process_file` (`ingest.rs` lines 295–337), abstracted over the file
I/O: `isRich` says whether the extension is a markitdown extension, `raw`
is the raw read/convert outcome, `idGen i` the fresh UUID of chunk `i`,
`now` the timestamp (dropped from the payload model).  A `none` result
means `chunk_text` diverged (never happens for `chunk_size ≥ 1`). -/
def process_file (isRich : Bool) (raw : Except Unit (List Char))
    (file_path ext : String) (file_name : List Char)
    (chunk_size chunk_overlap : Nat) (idGen : Nat → String) (now : String) :
    Option (Except Unit (List ChunkPayload)) :=
  match (if isRich then convert_with_markitdown raw else raw) with
  | Except.error e => some (Except.error e)
  | Except.ok content =>
    let title := extract_title content file_name
    (chunk_text content chunk_size chunk_overlap content.length).map
      (fun chunks =>
        Except.ok (chunks.enum.map (fun p =>
          { chunk_id := idGen p.1
            source_path := file_path
            source_type := ext
            title := title
            chunk_index := p.1
            text := p.2
            updated_at := now })))

/-- The per-file loop of a `run_ingest` batch (`ingest.rs` lines 126–139),
abstracted over each file's processing outcome: accumulate
`(all_chunks, processed_files, total_errors)`. -/
def processBatchFiles
    (outcomes : List (String × Except Unit (List ChunkPayload))) :
    List ChunkPayload × List String × Nat :=
  outcomes.foldl
    (fun acc o =>
      match o.2 with
      | Except.ok chunks => (acc.1 ++ chunks, acc.2.1 ++ [o.1], acc.2.2)
      | Except.error _ => (acc.1, acc.2.1, acc.2.2 + 1))
    ([], [], 0)

/-- `state.insert(path, mtime)` on the ingest-state map. -/
def insertState (state : List (String × String)) (path mtime : String) :
    List (String × String) :=
  match state with
  | [] => [(path, mtime)]
  | (k, v) :: rest =>
    if k = path then (k, mtime) :: rest else (k, v) :: insertState rest path mtime

/-- The state-update loop of `run_ingest` (`ingest.rs` lines 196–200):
record each successfully processed file whose mtime is readable. -/
def updateState (state : List (String × String)) (processed : List String)
    (mtime : String → Option String) : List (String × String) :=
  processed.foldl
    (fun st path =>
      match mtime path with
      | some m => insertState st path m
      | none => st)
    state

/-- The `embed_batch_size = 20` sub-batch split (`chunks(20)` on a Rust
slice), via a fuel argument that the length of the list always covers. -/
def chunksOf20Go : Nat → List ChunkPayload → List (List ChunkPayload)
  | 0, _ => []
  | _ + 1, [] => []
  | fuel + 1, l => l.take 20 :: chunksOf20Go fuel (l.drop 20)

/-- `chunk_sub_batches(&all_chunks, 20)` from `ingest.rs` lines 213–224
(only the chunk slices; the parallel text vectors carry no extra data). -/
def chunk_sub_batches (chunks : List ChunkPayload) :
    List (List ChunkPayload) :=
  chunksOf20Go chunks.length chunks

/-- The embedding loop of a batch (`ingest.rs` lines 151–166): sub-batches
whose embedding succeeds (per the oracle `embedOk`) are kept, failed
sub-batches are dropped. -/
def embedLoop (subs : List (List ChunkPayload))
    (embedOk : List ChunkPayload → Bool) : List ChunkPayload :=
  subs.foldl (fun acc sb => if embedOk sb then acc ++ sb else acc) []

/-- The observable contents of the two backing stores, as the sets of
`chunk_id`s they hold documents for. -/
structure BatchStores where
  vector : List String
  lex : List String
deriving DecidableEq, Repr

/-- One iteration of the batch loop of `run_ingest` (`ingest.rs` lines
141–193), abstracted over the embedding oracle and the success of the two
store writes: an empty chunk list or a fully failed embedding round skips
the batch (`continue`); otherwise the successfully embedded chunks are
upserted to the vector store and **all** batch chunks are indexed
lexically, each write only when its call succeeds. -/
def run_batch (st : BatchStores) (all_chunks : List ChunkPayload)
    (embedOk : List ChunkPayload → Bool) (upsertOk indexOk : Bool) :
    BatchStores :=
  if all_chunks.isEmpty then st
  else
    let embedded := embedLoop (chunk_sub_batches all_chunks) embedOk
    if embedded.isEmpty then st
    else
      { vector :=
          if upsertOk then st.vector ++ embedded.map ChunkPayload.chunk_id
          else st.vector
        lex :=
          if indexOk then st.lex ++ all_chunks.map ChunkPayload.chunk_id
          else st.lex }

/-! ### Supporting lemmas: trimming and the chunk loop -/

lemma dropWhile_of_no_match {p : Char → Bool} {l : List Char}
    (h : ∀ c ∈ l, p c = false) : l.dropWhile p = l := by
  cases l with
  | nil => rfl
  | cons a t => simp [List.dropWhile, h a (by simp)]

lemma trimChars_of_no_ws {l : List Char}
    (h : ∀ c ∈ l, rustIsWhitespace c = false) : trimChars l = l := by
  unfold trimChars
  rw [dropWhile_of_no_match h, dropWhile_of_no_match, List.reverse_reverse]
  intro c hc
  exact h c (List.mem_reverse.mp hc)

lemma chunkStep_pos {cs ov : Nat} (hcs : 1 ≤ cs) : 1 ≤ chunkStep cs ov := by
  unfold chunkStep
  split <;> omega

lemma chunkLoop_isSome (chars : List Char) (cs ov : Nat) (hcs : 1 ≤ cs) :
    ∀ fuel start, chars.length - start ≤ fuel →
      (chunkLoop chars cs ov fuel start).isSome := by
  intro fuel
  induction fuel with
  | zero =>
    intro start hle
    have h : ¬ start < chars.length := by omega
    simp [chunkLoop, h]
  | succ f ih =>
    intro start hle
    by_cases h : start < chars.length
    · rw [chunkLoop]
      simp only [h, if_true]
      by_cases he : chars.length ≤ min (start + cs) chars.length
      · simp [he]
      · have hstep : 1 ≤ chunkStep cs ov := chunkStep_pos hcs
        simp only [he, if_false]
        have := ih (start + chunkStep cs ov) (by omega)
        simpa using this
    · simp [chunkLoop, h]

/-- C9 supporting fact: with `chunk_size ≥ 1` the loop terminates within
`text.length` iterations of fuel. -/
lemma chunk_text_isSome (text : List Char) (cs ov : Nat) (hcs : 1 ≤ cs) :
    (chunk_text text cs ov text.length).isSome := by
  unfold chunk_text
  by_cases h0 : text.isEmpty
  · simp [h0]
  · by_cases h1 : text.length ≤ cs
    · simp [h0, h1]
    · simp only [h0, h1, if_false]
      have := chunkLoop_isSome text cs ov hcs text.length 0 (by omega)
      simpa using this

lemma chunkLoop_zero_diverges :
    ∀ fuel, chunkLoop ['a'] 0 0 fuel 0 = none := by
  intro fuel
  induction fuel with
  | zero => simp [chunkLoop, chunkStep]
  | succ f ih => simp [chunkLoop, chunkStep, ih]

/-- C9 (counterexample): on the one-character text `"a"` with
`chunk_size = 0` (and `overlap = 0 ≥ chunk_size`) the window never
advances, so `chunk_text` never answers however much fuel the loop gets —
the Rust loop runs forever. -/
theorem chunk_text_zero_size_diverges : chunkDiverges ['a'] 0 0 := by
  intro fuel
  unfold chunk_text
  simp [chunkLoop_zero_diverges fuel]

/-- C9 (amended): `chunk_text` terminates on every input with
`chunk_size ≥ 1` — in particular for every configuration with
`overlap ≥ chunk_size ≥ 1`; `text.length` units of fuel always complete
the loop. -/
theorem chunk_text_terminates (text : List Char) (cs ov : Nat)
    (hcs : 1 ≤ cs) : (chunk_text text cs ov text.length).isSome := by
  exact chunk_text_isSome text cs ov hcs

/-- C9 (witness): termination on a concrete misconfigured input with
`overlap ≥ chunk_size`. -/
theorem chunk_text_terminates_witness :
    (chunk_text ("aaaa".toList) 2 5 ("aaaa".toList).length).isSome :=
  chunk_text_terminates ("aaaa".toList) 2 5 (by norm_num)

/-- C8: `truncate_snippet` at limit 200 is idempotent once applied, and
its output is the input when it fits within 200 codepoints, else the first
200 codepoints followed by the literal `...` suffix.  (Truncation happens
at codepoint granularity by construction, which is the content of the
"preserves valid UTF-8" clause.) -/
theorem truncate_snippet_spec (t : List Char) :
    truncate_snippet (truncate_snippet t 200) 200 = truncate_snippet t 200
    ∧ truncate_snippet t 200 =
        (if t.length ≤ 200 then t else t.take 200 ++ ['.', '.', '.']) := by
  refine ⟨?_, rfl⟩
  unfold truncate_snippet
  by_cases h : t.length ≤ 200
  · simp [h]
  · have hlen : (t.take 200).length = 200 := by
      rw [List.length_take]
      omega
    have hlen2 : (t.take 200 ++ ['.', '.', '.']).length = 203 := by
      simp [hlen]
    simp only [h, if_false, hlen2]
    norm_num
    calc (t.take 200 ++ ['.', '.', '.']).take 200
        = (t.take 200 ++ ['.', '.', '.']).take (t.take 200).length := by
          rw [hlen]
      _ = t.take 200 := List.take_left _ _

/-! ### Chunking completeness (whitespace-free texts) -/

lemma trimChars_take_drop {chars : List Char}
    (hnw : ∀ c ∈ chars, rustIsWhitespace c = false) (n start : Nat) :
    trimChars ((chars.drop start).take n) = (chars.drop start).take n := by
  refine trimChars_of_no_ws (fun c hc => ?_)
  exact hnw c (List.mem_of_mem_drop (List.mem_of_mem_take hc))

lemma chunkLoop_glue (chars : List Char) (cs ov : Nat) (hov : ov < cs)
    (hnw : ∀ c ∈ chars, rustIsWhitespace c = false) :
    ∀ fuel start, chars.length - start ≤ fuel → start < chars.length →
      ∃ L, chunkLoop chars cs ov fuel start = some L ∧
        (∃ w rest, L = w :: rest ∧
          w.length = min cs (chars.length - start)) ∧
        (∀ c ∈ L, c ≠ []) ∧
        glueChunks ov L = chars.drop start := by
  intro fuel
  induction fuel with
  | zero => intro start h1 h2; omega
  | succ f ih =>
    intro start h1 h2
    rw [chunkLoop]
    simp only [h2, if_true]
    by_cases he : chars.length ≤ min (start + cs) chars.length
    · have hmin : min (start + cs) chars.length = chars.length := by omega
      rw [hmin, if_pos (le_refl chars.length)]
      have hdroplen : (chars.drop start).length = chars.length - start :=
        List.length_drop start chars
      have hwin : (chars.drop start).take (chars.length - start) =
          chars.drop start :=
        List.take_of_length_le (by omega)
      refine ⟨[chars.drop start], ?_, ⟨chars.drop start, [], rfl, ?_⟩, ?_, ?_⟩
      · rw [trimChars_take_drop hnw, hwin]
      · rw [hdroplen]
        omega
      · intro c hc
        rw [List.mem_singleton] at hc
        subst hc
        intro hnil
        have := congrArg List.length hnil
        rw [hdroplen] at this
        simp at this
        omega
      · simp [glueChunks]
    · have hlt : start + cs < chars.length := by omega
      have hmin : min (start + cs) chars.length = start + cs := by omega
      rw [hmin, if_neg (by omega : ¬ chars.length ≤ start + cs)]
      have hstep : chunkStep cs ov = cs - ov := by
        unfold chunkStep
        rw [if_pos hov]
      rw [hstep]
      obtain ⟨L', hL', ⟨w1, rest1, hhead, hw1len⟩, hne', hglue'⟩ :=
        ih (start + (cs - ov)) (by omega) (by omega)
      rw [hL']
      have hw0 : trimChars ((chars.drop start).take (start + cs - start)) =
          (chars.drop start).take cs := by
        rw [trimChars_take_drop hnw]
        congr 1
        omega
      refine ⟨(chars.drop start).take cs :: L', by rw [hw0]; rfl, ?_, ?_, ?_⟩
      · refine ⟨(chars.drop start).take cs, L', rfl, ?_⟩
        rw [List.length_take, List.length_drop]
      · intro c hc
        rcases List.mem_cons.mp hc with hc | hc
        · subst hc
          intro hnil
          have := congrArg List.length hnil
          rw [List.length_take, List.length_drop] at this
          simp at this
          omega
        · exact hne' c hc
      · have hw1ge : ov ≤ w1.length := by
          rw [hw1len]
          omega
        have hflat : (L'.map (List.drop ov)).flatten =
            chars.drop (start + cs) := by
          have hglue2 : glueChunks ov L' = w1 ++ (rest1.map (List.drop ov)).flatten := by
            rw [hhead]
            rfl
          rw [hhead]
          simp only [List.map_cons, List.flatten_cons]
          have : (w1 ++ (rest1.map (List.drop ov)).flatten).drop ov =
              w1.drop ov ++ (rest1.map (List.drop ov)).flatten := by
            rw [List.drop_append_eq_append_drop]
            have : ov - w1.length = 0 := by omega
            rw [this, List.drop_zero]
          rw [← this, ← hglue2, hglue']
          rw [List.drop_drop]
          congr 1
          omega
        show (chars.drop start).take cs ++ (L'.map (List.drop ov)).flatten =
          chars.drop start
        rw [hflat, ← List.drop_drop]
        exact List.take_append_drop cs (chars.drop start)

/-- C2 (amended): for whitespace-free texts, any `chunk_size > 0` and
`overlap < chunk_size`, the chunks of `chunk_text` glued back together —
dropping the `overlap` leading codepoints of every chunk after the first —
recover the text exactly. -/
theorem chunk_text_completeness (text : List Char) (cs ov : Nat)
    (hov : ov < cs) (hnw : ∀ c ∈ text, rustIsWhitespace c = false) :
    ∃ L, chunk_text text cs ov text.length = some L ∧
      glueChunks ov L = text := by
  unfold chunk_text
  by_cases h0 : text.isEmpty
  · refine ⟨[], by simp [h0], ?_⟩
    rw [List.isEmpty_iff] at h0
    simp [glueChunks, h0]
  · by_cases h1 : text.length ≤ cs
    · refine ⟨[text], by simp [h0, h1], ?_⟩
      simp [glueChunks]
    · simp only [h0, h1, if_false]
      have hne0 : 0 < text.length := by
        cases text with
        | nil => simp at h0
        | cons a t => simp
      obtain ⟨L, hL, _, hne, hglue⟩ :=
        chunkLoop_glue text cs ov hov hnw text.length 0 (by omega) (by omega)
      refine ⟨L, ?_, by simpa using hglue⟩
      have hfilter : List.filter (fun c => !c.isEmpty) L = L :=
        List.filter_eq_self.mpr
          (fun c hc => by simpa [List.isEmpty_iff] using hne c hc)
      simp [hL, hfilter]

/-- C2 (witness): a concrete whitespace-free text reassembles exactly. -/
theorem chunk_text_completeness_witness :
    ∃ L, chunk_text "abcde".toList 2 1 ("abcde".toList).length = some L ∧
      glueChunks 1 L = "abcde".toList :=
  chunk_text_completeness ("abcde".toList) 2 1 (by norm_num)
    (by decide)

/-- C2 (counterexample): the claim fails on the unmodified code because
each window is whitespace-trimmed before being emitted: for
`text = "a b"`, `chunk_size = 2`, `overlap = 0` the chunks glue to
`"ab"`, not `"a b"`. -/
theorem chunk_text_completeness_counterexample :
    (chunk_text "a b".toList 2 0 ("a b".toList).length).map (glueChunks 0) =
      some "ab".toList
    ∧ "ab".toList ≠ "a b".toList := by
  constructor
  · rfl
  · decide

/-! ### Title extraction -/

/-- The trimmed form of the first line whose trimmed form is non-empty.
Lines before it are empty after trimming, so they can satisfy neither
branch of the scan in `extract_title`; this is the "first non-empty line"
the specification speaks about. -/
def firstNonemptyTrimmed (text : List Char) : Option (List Char) :=
  ((rustLines text).map trimChars).find? (fun t => !t.isEmpty)

/-- The title computation as the specification words it, §4.A: decide on
the first non-empty trimmed line — `#`-heading stripped, else truncated to
100 codepoints — falling back to the file name. -/
def titleSpec (text fallback : List Char) : List Char :=
  match firstNonemptyTrimmed text with
  | some t =>
    if t.head? = some '#' then trimChars (t.dropWhile (fun c => c = '#'))
    else truncate_snippet t 100
  | none => fallback

lemma findTitle_eq (ls : List (List Char)) :
    findTitle ls =
      ((ls.map trimChars).find? (fun t => !t.isEmpty)).map
        (fun t =>
          if t.head? = some '#' then
            trimChars (t.dropWhile (fun c => c = '#'))
          else truncate_snippet t 100) := by
  induction ls with
  | nil => rfl
  | cons line rest ih =>
    simp only [findTitle, List.map_cons, List.find?_cons]
    by_cases hh : (trimChars line).head? = some '#'
    · have hne : (trimChars line).isEmpty = false := by
        cases h : trimChars line with
        | nil => rw [h] at hh; simp at hh
        | cons a t => rfl
      simp [hh, hne]
    · by_cases hne : (trimChars line).isEmpty
      · simp [hh, hne, ih]
      · simp only [Bool.not_eq_true] at hne
        simp [hh, hne]

lemma truncate_snippet_100_length (t : List Char) :
    (truncate_snippet t 100).length ≤ 104 := by
  unfold truncate_snippet
  split
  · omega
  · simp only [List.length_append, List.length_take, List.length_cons,
      List.length_nil]
    omega

/-- C5 (amended): `extract_title` returns exactly what the first
non-empty trimmed line dictates — a line beginning with `#` is returned
with its leading run of `#`s stripped and then whitespace-trimmed (which
can itself expose a further `#`, so the result may still begin with `#`);
any other non-empty first line is returned truncated to 100 codepoints,
hence has length at most 104; and with no non-empty line the fallback is
returned. -/
theorem extract_title_spec (text fallback : List Char) :
    extract_title text fallback = titleSpec text fallback
    ∧ ∀ t, (truncate_snippet t 100).length ≤ 104 := by
  constructor
  · unfold extract_title titleSpec
    rw [findTitle_eq]
    cases h : firstNonemptyTrimmed text with
    | none => rw [show ((rustLines text).map trimChars).find?
        (fun t => !t.isEmpty) = none from h]; rfl
    | some t => rw [show ((rustLines text).map trimChars).find?
        (fun t => !t.isEmpty) = some t from h]; rfl
  · exact truncate_snippet_100_length

/-- C5 (counterexample): for the text `"# #x"` the first (non-empty)
line's trimmed form begins with `#`, yet the returned title is `"#x"`,
which does have a leading `#` — refuting the "contains no leading `#`"
clause of the claim. -/
theorem extract_title_counterexample :
    firstNonemptyTrimmed "# #x".toList = some "# #x".toList
    ∧ ("# #x".toList).head? = some '#'
    ∧ extract_title "# #x".toList "f".toList = "#x".toList
    ∧ ("#x".toList).head? = some '#' := by
  refine ⟨by decide, by decide, by decide, by decide⟩

/-! ### RRF merge: score and result maps -/

/-- The score map built by the two scoring passes of `rrf_merge`. -/
def rrfScoresMap (vector_results bm25_results : List SearchResult) :
    List (String × ℚ) :=
  scoreLoop bm25_results 0 (scoreLoop vector_results 0 [])

/-- The metadata map built by the two metadata passes of `rrf_merge`. -/
def rrfResultMap (vector_results bm25_results : List SearchResult) :
    List (String × SearchResult) :=
  resultLoop bm25_results (resultLoop vector_results [])

/-- The total fused score of a chunk id (the two maps are only an
implementation of this sum). -/
def getScore (m : List (String × ℚ)) (id : String) : ℚ :=
  (lookupKey m id).getD 0

/-- The RRF contribution a single ranked list gives to a chunk id, ranks
counted from `rank`. -/
def contrib : List SearchResult → Nat → String → ℚ
  | [], _, _ => 0
  | r :: rest, rank, id =>
    (if r.chunk_id = id then rrfScore rank else 0) + contrib rest (rank + 1) id

lemma lookupKey_nil {α : Type} (x : String) :
    lookupKey ([] : List (String × α)) x = none := rfl

lemma lookupKey_cons {α : Type} (k : String) (v : α)
    (rest : List (String × α)) (x : String) :
    lookupKey ((k, v) :: rest) x = if k = x then some v else lookupKey rest x := by
  by_cases h : k = x <;> simp [lookupKey, List.find?_cons, h]

/-- The keys of an association list. -/
def keyList {α : Type} (m : List (String × α)) : List String :=
  m.map Prod.fst

lemma addScore_nil (id : String) (v : ℚ) :
    addScore [] id v = [(id, 0 + v)] := rfl

lemma addScore_cons (k : String) (s : ℚ) (rest : List (String × ℚ))
    (id : String) (v : ℚ) :
    addScore ((k, s) :: rest) id v =
      if k = id then (k, s + v) :: rest else (k, s) :: addScore rest id v := rfl

lemma insertAbsent_cons (k : String) (w : SearchResult)
    (rest : List (String × SearchResult)) (id : String) (r : SearchResult) :
    insertAbsent ((k, w) :: rest) id r =
      if k = id then (k, w) :: rest else (k, w) :: insertAbsent rest id r := rfl

lemma removeEntry_cons (k : String) (w : SearchResult)
    (rest : List (String × SearchResult)) (id : String) :
    removeEntry ((k, w) :: rest) id =
      if k = id then (some w, rest)
      else ((removeEntry rest id).1, (k, w) :: (removeEntry rest id).2) := by
  by_cases h : k = id <;> simp [removeEntry, h]

lemma lookupKey_isSome_iff {α : Type} (m : List (String × α)) (x : String) :
    (lookupKey m x).isSome ↔ x ∈ keyList m := by
  induction m with
  | nil => simp [lookupKey_nil, keyList]
  | cons q rest ih =>
    obtain ⟨k, v⟩ := q
    rw [lookupKey_cons]
    by_cases h : k = x
    · subst h
      simp [keyList]
    · rw [if_neg h, ih]
      unfold keyList
      simp only [List.map_cons, List.mem_cons]
      constructor
      · exact fun hm => Or.inr hm
      · rintro (hk | hm)
        · exact absurd hk.symm h
        · exact hm

lemma mem_of_lookupKey {α : Type} {m : List (String × α)} {x : String}
    {v : α} (h : lookupKey m x = some v) : (x, v) ∈ m := by
  induction m with
  | nil => simp [lookupKey_nil] at h
  | cons q rest ih =>
    obtain ⟨k, w⟩ := q
    rw [lookupKey_cons] at h
    by_cases hk : k = x
    · rw [if_pos hk] at h
      subst hk
      cases h
      exact List.mem_cons_self _ _
    · rw [if_neg hk] at h
      exact List.mem_cons_of_mem _ (ih h)

lemma lookupKey_eq_getScore {m : List (String × ℚ)} {x : String}
    (h : x ∈ keyList m) : (x, getScore m x) ∈ m := by
  unfold getScore
  obtain ⟨v, hv⟩ := Option.isSome_iff_exists.mp
    ((lookupKey_isSome_iff m x).mpr h)
  rw [hv]
  exact mem_of_lookupKey hv

lemma addScore_getScore (m : List (String × ℚ)) (id : String) (v : ℚ)
    (x : String) :
    getScore (addScore m id v) x =
      getScore m x + (if id = x then v else 0) := by
  induction m with
  | nil =>
    unfold addScore getScore
    by_cases h : id = x <;> simp [lookupKey_cons, lookupKey_nil, h]
  | cons q rest ih =>
    obtain ⟨k, s⟩ := q
    by_cases hk : k = id
    · rw [addScore_cons, if_pos hk]
      subst hk
      unfold getScore
      by_cases hx : k = x
      · subst hx
        simp [lookupKey_cons]
      · simp [lookupKey_cons, hx]
    · rw [addScore_cons, if_neg hk]
      unfold getScore at ih ⊢
      by_cases hx : k = x
      · subst hx
        have hne : ¬ id = k := fun h => hk h.symm
        simp [lookupKey_cons, hne]
      · simp only [lookupKey_cons, if_neg hx]
        exact ih

lemma addScore_keys_mem (m : List (String × ℚ)) (id : String) (v : ℚ)
    (x : String) :
    x ∈ keyList (addScore m id v) ↔ x ∈ keyList m ∨ x = id := by
  induction m with
  | nil =>
    unfold addScore keyList
    simp [eq_comm]
  | cons q rest ih =>
    obtain ⟨k, s⟩ := q
    by_cases hk : k = id
    · rw [addScore_cons, if_pos hk]
      unfold keyList
      simp only [List.map_cons, List.mem_cons]
      subst hk
      tauto
    · rw [addScore_cons, if_neg hk]
      unfold keyList at ih ⊢
      simp only [List.map_cons, List.mem_cons]
      tauto

lemma scoreLoop_getScore (l : List SearchResult) :
    ∀ (rank : Nat) (m : List (String × ℚ)) (x : String),
      getScore (scoreLoop l rank m) x = getScore m x + contrib l rank x := by
  induction l with
  | nil => intro rank m x; simp [scoreLoop, contrib]
  | cons r rest ih =>
    intro rank m x
    show getScore (scoreLoop rest (rank + 1)
      (addScore m r.chunk_id (rrfScore rank))) x = _
    rw [ih, addScore_getScore]
    show _ = getScore m x +
      ((if r.chunk_id = x then rrfScore rank else 0) + contrib rest (rank + 1) x)
    ring

lemma scoreLoop_keys_mem (l : List SearchResult) :
    ∀ (rank : Nat) (m : List (String × ℚ)) (x : String),
      x ∈ keyList (scoreLoop l rank m) ↔
        x ∈ keyList m ∨ x ∈ l.map SearchResult.chunk_id := by
  induction l with
  | nil => intro rank m x; simp [scoreLoop]
  | cons r rest ih =>
    intro rank m x
    show x ∈ keyList (scoreLoop rest (rank + 1)
      (addScore m r.chunk_id (rrfScore rank))) ↔ _
    rw [ih, addScore_keys_mem]
    simp [List.mem_cons]
    tauto

lemma addScore_keys_nodup (m : List (String × ℚ)) (id : String) (v : ℚ)
    (h : (keyList m).Nodup) : (keyList (addScore m id v)).Nodup := by
  induction m with
  | nil => simp [addScore_nil, keyList]
  | cons q rest ih =>
    obtain ⟨k, s⟩ := q
    unfold keyList at h
    simp only [List.map_cons, List.nodup_cons] at h
    by_cases hk : k = id
    · rw [addScore_cons, if_pos hk]
      unfold keyList
      simp only [List.map_cons, List.nodup_cons]
      exact h
    · rw [addScore_cons, if_neg hk]
      unfold keyList
      simp only [List.map_cons, List.nodup_cons]
      refine ⟨?_, ih h.2⟩
      intro hmem
      rcases (addScore_keys_mem rest id v k).mp hmem with hm | he
      · exact h.1 hm
      · exact hk he

lemma scoreLoop_keys_nodup (l : List SearchResult) :
    ∀ (rank : Nat) (m : List (String × ℚ)), (keyList m).Nodup →
      (keyList (scoreLoop l rank m)).Nodup := by
  induction l with
  | nil => intro rank m h; exact h
  | cons r rest ih =>
    intro rank m h
    exact ih (rank + 1) _ (addScore_keys_nodup m r.chunk_id (rrfScore rank) h)

lemma contrib_of_not_mem {l : List SearchResult} {id : String}
    (h : id ∉ l.map SearchResult.chunk_id) :
    ∀ rank, contrib l rank id = 0 := by
  induction l with
  | nil => intro rank; rfl
  | cons r rest ih =>
    intro rank
    simp only [List.map_cons, List.mem_cons] at h
    push_neg at h
    show (if r.chunk_id = id then rrfScore rank else 0) +
      contrib rest (rank + 1) id = 0
    rw [if_neg (fun he => h.1 he.symm), ih h.2, zero_add]

lemma contrib_of_rank {l : List SearchResult} {id : String}
    (hnd : (l.map SearchResult.chunk_id).Nodup) {r : Nat}
    (hget : (l.map SearchResult.chunk_id).get? r = some id) :
    ∀ rank, contrib l rank id = rrfScore (rank + r) := by
  induction l generalizing r with
  | nil => simp at hget
  | cons c rest ih =>
    intro rank
    simp only [List.map_cons, List.nodup_cons] at hnd
    show (if c.chunk_id = id then rrfScore rank else 0) +
      contrib rest (rank + 1) id = _
    cases r with
    | zero =>
      simp only [List.map_cons, List.get?_cons_zero] at hget
      cases hget
      rw [if_pos rfl, contrib_of_not_mem hnd.1 (rank + 1), add_zero, Nat.add_zero]
    | succ n =>
      simp only [List.map_cons, List.get?_cons_succ] at hget
      have hmem : id ∈ rest.map SearchResult.chunk_id :=
        List.get?_mem hget
      have hne : ¬ c.chunk_id = id := fun he => hnd.1 (by rw [he]; exact hmem)
      rw [if_neg hne, zero_add, ih hnd.2 hget (rank + 1)]
      congr 1
      omega

lemma insertAbsent_lookup (m : List (String × SearchResult)) (id : String)
    (r : SearchResult) (x : String) :
    lookupKey (insertAbsent m id r) x =
      match lookupKey m x with
      | some v => some v
      | none => if id = x then some r else none := by
  induction m with
  | nil => simp [insertAbsent, lookupKey_cons, lookupKey_nil]
  | cons q rest ih =>
    obtain ⟨k, w⟩ := q
    rw [insertAbsent_cons]
    by_cases hk : k = id
    · rw [if_pos hk]
      rw [lookupKey_cons]
      by_cases hx : k = x
      · rw [if_pos hx]
      · rw [if_neg hx]
        cases h : lookupKey rest x with
        | some v => rfl
        | none =>
          have : ¬ id = x := fun he => hx (hk.trans he)
          simp [this]
    · rw [if_neg hk, lookupKey_cons, lookupKey_cons]
      by_cases hx : k = x
      · rw [if_pos hx, if_pos hx]
      · rw [if_neg hx, if_neg hx]
        exact ih

lemma resultLoop_lookup (l : List SearchResult) :
    ∀ (m : List (String × SearchResult)) (x : String),
      lookupKey (resultLoop l m) x =
        match lookupKey m x with
        | some v => some v
        | none => l.find? (fun s => s.chunk_id = x) := by
  induction l with
  | nil =>
    intro m x
    cases h : lookupKey m x <;> simp [resultLoop, h]
  | cons r rest ih =>
    intro m x
    show lookupKey (resultLoop rest (insertAbsent m r.chunk_id r)) x = _
    rw [ih, insertAbsent_lookup]
    cases h : lookupKey m x with
    | some v => rfl
    | none =>
      simp only [List.find?_cons]
      by_cases hx : r.chunk_id = x
      · simp [hx]
      · simp [hx]

/-- The lookup table the final phase of `rrf_merge` draws metadata from is
first-occurrence search over the vector list followed by the BM25 list. -/
lemma rrfResultMap_lookup (V B : List SearchResult) (x : String) :
    lookupKey (rrfResultMap V B) x =
      (V ++ B).find? (fun s => s.chunk_id = x) := by
  unfold rrfResultMap
  rw [resultLoop_lookup, resultLoop_lookup, List.find?_append]
  cases h : lookupKey ([] : List (String × SearchResult)) x with
  | some v => simp [lookupKey_nil] at h
  | none =>
    cases hV : V.find? (fun s => s.chunk_id = x) with
    | some v => rfl
    | none => rfl

lemma removeEntry_fst (m : List (String × SearchResult)) (id : String) :
    (removeEntry m id).1 = lookupKey m id := by
  induction m with
  | nil => simp [removeEntry, lookupKey_nil]
  | cons q rest ih =>
    obtain ⟨k, w⟩ := q
    rw [removeEntry_cons, lookupKey_cons]
    by_cases hk : k = id
    · rw [if_pos hk, if_pos hk]
    · rw [if_neg hk, if_neg hk]
      exact ih

lemma removeEntry_of_none {m : List (String × SearchResult)} {id : String}
    (h : lookupKey m id = none) : (removeEntry m id).2 = m := by
  induction m with
  | nil => rfl
  | cons q rest ih =>
    obtain ⟨k, w⟩ := q
    rw [lookupKey_cons] at h
    by_cases hk : k = id
    · rw [if_pos hk] at h
      cases h
    · rw [if_neg hk] at h
      rw [removeEntry_cons, if_neg hk]
      simp [ih h]

lemma removeEntry_lookup_ne (m : List (String × SearchResult))
    (id x : String) (hne : ¬ x = id) :
    lookupKey (removeEntry m id).2 x = lookupKey m x := by
  induction m with
  | nil => rfl
  | cons q rest ih =>
    obtain ⟨k, w⟩ := q
    rw [removeEntry_cons]
    by_cases hk : k = id
    · rw [if_pos hk, lookupKey_cons]
      have : ¬ k = x := fun he => hne (he.symm.trans hk)
      rw [if_neg this]
    · rw [if_neg hk]
      simp only
      rw [lookupKey_cons, lookupKey_cons]
      by_cases hx : k = x
      · rw [if_pos hx, if_pos hx]
      · rw [if_neg hx, if_neg hx]
        exact ih

lemma takeMerge_cons (id : String) (sc : ℚ) (rest : List (String × ℚ))
    (m : List (String × SearchResult)) :
    takeMerge ((id, sc) :: rest) m =
      match removeEntry m id with
      | (some r, m') => { r with score := sc } :: takeMerge rest m'
      | (none, m') => takeMerge rest m' := rfl

/-- The final `take(top_k).filter_map` phase, rephrased: with distinct
scored ids, each output entry is the looked-up metadata with the fused
score written over its `score` field. -/
lemma takeMerge_filterMap (ps : List (String × ℚ)) :
    ∀ (m : List (String × SearchResult)), (ps.map Prod.fst).Nodup →
      takeMerge ps m = ps.filterMap
        (fun p => (lookupKey m p.1).map (fun r => { r with score := p.2 })) := by
  induction ps with
  | nil => intro m _; rfl
  | cons p rest ih =>
    intro m hnd
    obtain ⟨id, sc⟩ := p
    simp only [List.map_cons, List.nodup_cons] at hnd
    rw [takeMerge_cons]
    cases hl : lookupKey m id with
    | some r =>
      have hre : removeEntry m id = (some r, (removeEntry m id).2) := by
        have := removeEntry_fst m id
        rw [hl] at this
        exact Prod.ext this rfl
      rw [hre]
      simp only [List.filterMap_cons, hl, Option.map_some']
      rw [ih _ hnd.2]
      refine congrArg _ (List.filterMap_congr (fun q hq => ?_))
      have hqne : ¬ q.1 = id := by
        intro he
        exact hnd.1 (he ▸ List.mem_map_of_mem Prod.fst hq)
      rw [removeEntry_lookup_ne m id q.1 hqne]
    | none =>
      have hre : removeEntry m id = (none, m) := by
        have h1 := removeEntry_fst m id
        rw [hl] at h1
        have h2 := removeEntry_of_none hl
        exact Prod.ext h1 h2
      rw [hre]
      simp only [List.filterMap_cons, hl, Option.map_none']
      exact ih m hnd.2

/-! ### The sort phase -/

lemma insertDesc_perm (x : String × ℚ) (l : List (String × ℚ)) :
    (insertDesc x l).Perm (x :: l) := by
  induction l with
  | nil => exact List.Perm.refl _
  | cons y ys ih =>
    unfold insertDesc
    by_cases h : y.2 ≤ x.2
    · rw [if_pos h]
    · rw [if_neg h]
      exact (ih.cons y).trans (List.Perm.swap x y ys)

lemma sortByScoreDesc_perm (l : List (String × ℚ)) :
    (sortByScoreDesc l).Perm l := by
  induction l with
  | nil => exact List.Perm.refl _
  | cons x xs ih =>
    unfold sortByScoreDesc at ih ⊢
    simp only [List.foldr_cons]
    exact (insertDesc_perm x _).trans (ih.cons x)

lemma insertDesc_pairwise (x : String × ℚ) (l : List (String × ℚ))
    (h : l.Pairwise (fun a b => b.2 ≤ a.2)) :
    (insertDesc x l).Pairwise (fun a b => b.2 ≤ a.2) := by
  induction l with
  | nil => simp [insertDesc]
  | cons y ys ih =>
    rw [List.pairwise_cons] at h
    unfold insertDesc
    by_cases hc : y.2 ≤ x.2
    · rw [if_pos hc]
      refine List.Pairwise.cons ?_ (List.Pairwise.cons h.1 h.2)
      intro b hb
      rcases List.mem_cons.mp hb with hb | hb
      · rw [hb]
        exact hc
      · exact le_trans (h.1 b hb) hc
    · rw [if_neg hc]
      refine List.Pairwise.cons ?_ (ih h.2)
      intro b hb
      have hb2 := (insertDesc_perm x ys).mem_iff.mp hb
      rcases List.mem_cons.mp hb2 with hb1 | hb1
      · rw [hb1]
        exact le_of_lt (lt_of_not_le hc)
      · exact h.1 b hb1

lemma sortByScoreDesc_pairwise (l : List (String × ℚ)) :
    (sortByScoreDesc l).Pairwise (fun a b => b.2 ≤ a.2) := by
  induction l with
  | nil => simp [sortByScoreDesc]
  | cons x xs ih =>
    unfold sortByScoreDesc at ih ⊢
    simp only [List.foldr_cons]
    exact insertDesc_pairwise x _ ih

lemma sortByScoreDesc_eq_self (l : List (String × ℚ))
    (h : l.Pairwise (fun a b => b.2 ≤ a.2)) : sortByScoreDesc l = l := by
  induction l with
  | nil => rfl
  | cons x xs ih =>
    rw [List.pairwise_cons] at h
    unfold sortByScoreDesc at ih ⊢
    simp only [List.foldr_cons]
    rw [ih h.2]
    cases xs with
    | nil => rfl
    | cons y ys =>
      unfold insertDesc
      rw [if_pos (h.1 y (List.mem_cons_self y ys))]

lemma eq_of_mem_of_nodup_keys {α : Type} {l : List (String × α)}
    (hnd : (l.map Prod.fst).Nodup) {k : String} {a b : α}
    (ha : (k, a) ∈ l) (hb : (k, b) ∈ l) : a = b := by
  induction l with
  | nil => simp at ha
  | cons p rest ih =>
    simp only [List.map_cons, List.nodup_cons] at hnd
    rcases List.mem_cons.mp ha with ha1 | ha1 <;>
      rcases List.mem_cons.mp hb with hb1 | hb1
    · rw [← ha1] at hb1
      injection hb1 with h1 h2
      exact h2.symm
    · exfalso
      apply hnd.1
      rw [show p.1 = k from by rw [← ha1]]
      exact List.mem_map_of_mem Prod.fst hb1
    · exfalso
      apply hnd.1
      rw [show p.1 = k from by rw [← hb1]]
      exact List.mem_map_of_mem Prod.fst ha1
    · exact ih hnd.2 ha1 hb1

/-- In a list sorted by score descending with distinct keys, a strictly
greater score means a strictly earlier position. -/
lemma indexOf_lt_of_score_gt (l : List (String × ℚ))
    (hs : l.Pairwise (fun a b => b.2 ≤ a.2)) (hnd : (l.map Prod.fst).Nodup)
    (cid did : String) (x y : ℚ)
    (hc : (cid, x) ∈ l) (hd : (did, y) ∈ l) (hxy : y < x) :
    (l.map Prod.fst).indexOf cid < (l.map Prod.fst).indexOf did := by
  have hcd : cid ≠ did := by
    intro he
    subst he
    exact absurd (eq_of_mem_of_nodup_keys hnd hc hd) (ne_of_gt hxy)
  induction l with
  | nil => simp at hc
  | cons p rest ih =>
    rw [List.pairwise_cons] at hs
    simp only [List.map_cons, List.nodup_cons] at hnd
    rcases List.mem_cons.mp hc with hc1 | hc1
    · have hhead : p.1 = cid := by rw [← hc1]
      rw [List.map_cons, hhead, List.indexOf_cons_self]
      rw [List.indexOf_cons_ne (List.map Prod.fst rest) hcd]
      exact Nat.succ_pos _
    · rcases List.mem_cons.mp hd with hd1 | hd1
      · exfalso
        have hle : x ≤ p.2 := hs.1 _ hc1
        have hp2 : p.2 = y := by rw [← hd1]
        rw [hp2] at hle
        exact absurd (lt_of_lt_of_le hxy hle) (lt_irrefl y)
      · have hcne : p.1 ≠ cid := by
          intro he
          exact hnd.1 (by rw [he]; exact List.mem_map_of_mem Prod.fst hc1)
        have hdne : p.1 ≠ did := by
          intro he
          exact hnd.1 (by rw [he]; exact List.mem_map_of_mem Prod.fst hd1)
        rw [List.map_cons, List.indexOf_cons_ne _ hcne,
          List.indexOf_cons_ne _ hdne]
        exact Nat.succ_lt_succ (ih hs.2 hnd.2 hc1 hd1)

lemma indexOf_lt_of_mem_take {S : List String} {a : String} :
    ∀ {k : Nat}, a ∈ S.take k → S.indexOf a < k := by
  induction S with
  | nil => intro k h; simp at h
  | cons b rest ih =>
    intro k h
    cases k with
    | zero => simp at h
    | succ k' =>
      rw [List.take_succ_cons] at h
      by_cases hb : b = a
      · subst hb
        rw [List.indexOf_cons_self]
        exact Nat.succ_pos _
      · rcases List.mem_cons.mp h with h1 | h1
        · exact absurd h1.symm hb
        · rw [List.indexOf_cons_ne _ hb]
          exact Nat.succ_lt_succ (ih h1)

lemma mem_take_of_indexOf_lt {S : List String} {a : String} :
    ∀ {k : Nat}, S.indexOf a < k → a ∈ S → a ∈ S.take k := by
  induction S with
  | nil => intro k h1 h2; simp at h2
  | cons b rest ih =>
    intro k h1 h2
    cases k with
    | zero => omega
    | succ k' =>
      rw [List.take_succ_cons]
      by_cases hb : b = a
      · subst hb
        exact List.mem_cons_self _ _
      · rw [List.indexOf_cons_ne _ hb] at h1
        rcases List.mem_cons.mp h2 with h3 | h3
        · exact absurd h3.symm hb
        · exact List.mem_cons_of_mem _ (ih (Nat.lt_of_succ_lt_succ h1) h3)

lemma indexOf_take_eq {S : List String} {a : String} :
    ∀ {k : Nat}, a ∈ S.take k →
      (S.take k).indexOf a = S.indexOf a := by
  induction S with
  | nil => intro k h; simp at h
  | cons b rest ih =>
    intro k h
    cases k with
    | zero => simp at h
    | succ k' =>
      rw [List.take_succ_cons] at h ⊢
      by_cases hb : b = a
      · subst hb
        rw [List.indexOf_cons_self, List.indexOf_cons_self]
      · rcases List.mem_cons.mp h with h1 | h1
        · exact absurd h1.symm hb
        · rw [List.indexOf_cons_ne _ hb, List.indexOf_cons_ne _ hb, ih h1]

/-! ### rrf_merge: assembling the phases -/

lemma addScore_append_of_not_mem {m : List (String × ℚ)} {id : String}
    (v : ℚ) (h : id ∉ keyList m) : addScore m id v = m ++ [(id, v)] := by
  induction m with
  | nil => rw [addScore_nil, zero_add]; rfl
  | cons q rest ih =>
    obtain ⟨k, s⟩ := q
    unfold keyList at h
    simp only [List.map_cons, List.mem_cons] at h
    push_neg at h
    rw [addScore_cons, if_neg (fun he => h.1 he.symm)]
    rw [ih h.2]
    rfl

lemma keyList_append {α : Type} (m₁ m₂ : List (String × α)) :
    keyList (m₁ ++ m₂) = keyList m₁ ++ keyList m₂ := by
  unfold keyList
  exact List.map_append _ _ _

lemma scoreLoop_of_disjoint (l : List SearchResult) :
    ∀ (rank : Nat) (m : List (String × ℚ)),
      (l.map SearchResult.chunk_id).Nodup →
      (∀ x ∈ l.map SearchResult.chunk_id, x ∉ keyList m) →
      scoreLoop l rank m =
        m ++ (l.enumFrom rank).map
          (fun p => (p.2.chunk_id, rrfScore p.1)) := by
  induction l with
  | nil => intro rank m _ _; simp [scoreLoop]
  | cons r rest ih =>
    intro rank m hnd hdisj
    simp only [List.map_cons, List.nodup_cons] at hnd
    show scoreLoop rest (rank + 1) (addScore m r.chunk_id (rrfScore rank)) = _
    rw [addScore_append_of_not_mem (rrfScore rank)
      (hdisj r.chunk_id (by simp))]
    rw [ih (rank + 1) _ hnd.2 ?_]
    · rw [List.enumFrom_cons, List.map_cons, List.append_assoc]
      rfl
    · intro x hx
      rw [keyList_append]
      simp only [List.mem_append]
      push_neg
      constructor
      · exact hdisj x (List.mem_cons_of_mem _ hx)
      · intro hc
        simp only [keyList, List.map_cons, List.map_nil,
          List.mem_singleton] at hc
        exact hnd.1 (hc ▸ hx)

lemma rrfScore_anti {r r' : Nat} (h : r ≤ r') : rrfScore r' ≤ rrfScore r := by
  unfold rrfScore
  have h1 : (0 : ℚ) < 60 + (r : ℚ) + 1 := by positivity
  apply one_div_le_one_div_of_le h1
  have : (r : ℚ) ≤ (r' : ℚ) := by exact_mod_cast h
  linarith

lemma enumFrom_map_pairwise (l : List SearchResult) :
    ∀ rank : Nat,
      ((l.enumFrom rank).map (fun p => (p.2.chunk_id, rrfScore p.1))).Pairwise
        (fun a b => b.2 ≤ a.2) := by
  induction l with
  | nil => intro rank; simp
  | cons r rest ih =>
    intro rank
    rw [List.enumFrom_cons, List.map_cons, List.pairwise_cons]
    refine ⟨?_, ih (rank + 1)⟩
    intro b hb
    obtain ⟨p, hp, hpb⟩ := List.mem_map.mp hb
    have hrank := (List.mem_enumFrom hp).1
    rw [← hpb]
    exact rrfScore_anti (by omega)

lemma find?_eq_of_nodup {L : List SearchResult}
    (hnd : (L.map SearchResult.chunk_id).Nodup) {c : SearchResult}
    (hc : c ∈ L) :
    L.find? (fun s => s.chunk_id = c.chunk_id) = some c := by
  induction L with
  | nil => simp at hc
  | cons r rest ih =>
    simp only [List.map_cons, List.nodup_cons] at hnd
    rcases List.mem_cons.mp hc with h1 | h1
    · subst h1
      simp [List.find?_cons]
    · have hne : ¬ r.chunk_id = c.chunk_id := by
        intro he
        exact hnd.1 (he ▸ List.mem_map_of_mem SearchResult.chunk_id h1)
      rw [List.find?_cons, show decide (r.chunk_id = c.chunk_id) = false
        from decide_eq_false hne]
      exact ih hnd.2 h1

lemma filterMap_take_of_isSome {α β : Type} (g : α → Option β)
    (ps : List α) (h : ∀ p ∈ ps, (g p).isSome) :
    ∀ k, (ps.take k).filterMap g = (ps.filterMap g).take k := by
  induction ps with
  | nil => intro k; simp
  | cons p rest ih =>
    intro k
    cases k with
    | zero => simp
    | succ k' =>
      rw [List.take_succ_cons, List.filterMap_cons, List.filterMap_cons]
      cases hg : g p with
      | none =>
        exfalso
        have := h p (List.mem_cons_self _ _)
        rw [hg] at this
        simp at this
      | some b =>
        rw [List.take_succ_cons, ih (fun q hq => h q (List.mem_cons_of_mem _ hq)) k']

lemma resultLoop_nil_lookup (L : List SearchResult) (x : String) :
    lookupKey (resultLoop L []) x =
      L.find? (fun s => s.chunk_id = x) := by
  rw [resultLoop_lookup]
  simp [lookupKey_nil]

lemma snd_mem_of_mem_enum {L : List SearchResult} {q : Nat × SearchResult}
    (hq : q ∈ L.enum) : q.2 ∈ L := by
  obtain ⟨h1, h2, h3⟩ := List.mem_enumFrom (by simpa using hq)
  rw [h3]
  exact L.getElem_mem _

/-- C4: merging a ranked list `L` with pairwise-distinct chunk ids against
an empty second list returns `L` truncated to `top_k`, in `L`'s order,
each result's `score` overwritten with its fused score
`1/(60 + rank + 1)`. -/
theorem rrf_merge_empty_bm25 (L : List SearchResult) (top_k : Nat)
    (hnd : (L.map SearchResult.chunk_id).Nodup) :
    rrf_merge L [] top_k =
      (L.enum.map (fun p => { p.2 with score := rrfScore p.1 })).take top_k := by
  have hS : scoreLoop L 0 [] =
      (L.enumFrom 0).map (fun p => (p.2.chunk_id, rrfScore p.1)) := by
    simpa using scoreLoop_of_disjoint L 0 [] hnd
      (by intro x hx; simp [keyList])
  show takeMerge
      ((sortByScoreDesc (scoreLoop L 0 [])).take top_k) (resultLoop L []) = _
  rw [hS, sortByScoreDesc_eq_self _ (enumFrom_map_pairwise L 0)]
  have hfst : ((L.enumFrom 0).map
      (fun p => (p.2.chunk_id, rrfScore p.1))).map Prod.fst =
      L.map SearchResult.chunk_id := by
    rw [List.map_map]
    show (L.enumFrom 0).map (fun p => p.2.chunk_id) = _
    rw [show (fun p : Nat × SearchResult => p.2.chunk_id) =
      SearchResult.chunk_id ∘ Prod.snd from rfl, ← List.map_map]
    rw [show L.enumFrom 0 = L.enum from rfl, List.enum_map_snd]
  have hnd_take : ((((L.enumFrom 0).map
      (fun p => (p.2.chunk_id, rrfScore p.1))).take top_k).map Prod.fst).Nodup := by
    rw [List.map_take, hfst]
    exact (List.take_sublist _ _).nodup hnd
  rw [takeMerge_filterMap _ _ hnd_take]
  have hsome : ∀ p ∈ (L.enumFrom 0).map
      (fun p => (p.2.chunk_id, rrfScore p.1)),
      (lookupKey (resultLoop L []) p.1).isSome := by
    intro p hp
    obtain ⟨q, hq, hqp⟩ := List.mem_map.mp hp
    rw [← hqp]
    show (lookupKey (resultLoop L []) q.2.chunk_id).isSome
    rw [resultLoop_nil_lookup,
      find?_eq_of_nodup hnd (snd_mem_of_mem_enum (by simpa using hq))]
    rfl
  have hsome2 : ∀ p ∈ (L.enumFrom 0).map
      (fun p => (p.2.chunk_id, rrfScore p.1)),
      ((fun p : String × ℚ =>
        (lookupKey (resultLoop L []) p.1).map
          (fun r => { r with score := p.2 })) p).isSome := by
    intro p hp
    simpa using hsome p hp
  have hstep := filterMap_take_of_isSome
    (fun p : String × ℚ =>
      (lookupKey (resultLoop L []) p.1).map
        (fun r => { r with score := p.2 }))
    ((L.enumFrom 0).map (fun p => (p.2.chunk_id, rrfScore p.1)))
    hsome2 top_k
  rw [hstep]
  congr 1
  rw [show L.enumFrom 0 = L.enum from rfl, List.filterMap_map]
  have hcong : ∀ q ∈ L.enum,
      ((fun p : String × ℚ =>
          (lookupKey (resultLoop L []) p.1).map
            (fun r => { r with score := p.2 })) ∘
        (fun p : Nat × SearchResult => (p.2.chunk_id, rrfScore p.1))) q =
      (some ∘ fun p : Nat × SearchResult =>
        { p.2 with score := rrfScore p.1 }) q := by
    intro q hq
    simp only [Function.comp_apply]
    rw [resultLoop_nil_lookup,
      find?_eq_of_nodup hnd (snd_mem_of_mem_enum hq)]
    rfl
  rw [List.filterMap_congr hcong, List.filterMap_eq_map]

/-- C4 (witness): a two-element list with `top_k = 5`. -/
theorem rrf_merge_empty_bm25_witness :
    rrf_merge
      [⟨"a", 0, "ta", "/a", "md", "sa"⟩, ⟨"b", 0, "tb", "/b", "md", "sb"⟩]
      [] 5 =
      [⟨"a", rrfScore 0, "ta", "/a", "md", "sa"⟩,
       ⟨"b", rrfScore 1, "tb", "/b", "md", "sb"⟩] := by
  rw [rrf_merge_empty_bm25 _ 5 (by decide)]
  rfl

lemma lookup_rrfResultMap_chunk_id {V B : List SearchResult} {x : String}
    {r : SearchResult} (h : lookupKey (rrfResultMap V B) x = some r) :
    r.chunk_id = x := by
  rw [rrfResultMap_lookup] at h
  have h2 := List.find?_some h
  exact of_decide_eq_true h2

lemma rrfScoresMap_keys_mem (V B : List SearchResult) (x : String) :
    x ∈ keyList (rrfScoresMap V B) ↔
      x ∈ V.map SearchResult.chunk_id ∨ x ∈ B.map SearchResult.chunk_id := by
  unfold rrfScoresMap
  rw [scoreLoop_keys_mem, scoreLoop_keys_mem]
  simp [keyList]

lemma rrfScoresMap_keys_nodup (V B : List SearchResult) :
    (keyList (rrfScoresMap V B)).Nodup := by
  unfold rrfScoresMap
  exact scoreLoop_keys_nodup B 0 _
    (scoreLoop_keys_nodup V 0 [] (by simp [keyList]))

lemma rrfResultMap_lookup_isSome (V B : List SearchResult) (x : String)
    (h : x ∈ V.map SearchResult.chunk_id ∨ x ∈ B.map SearchResult.chunk_id) :
    (lookupKey (rrfResultMap V B) x).isSome := by
  rw [rrfResultMap_lookup, List.find?_isSome]
  rcases h with h | h
  · obtain ⟨c, hc, hcx⟩ := List.mem_map.mp h
    exact ⟨c, List.mem_append_left _ hc, decide_eq_true hcx⟩
  · obtain ⟨c, hc, hcx⟩ := List.mem_map.mp h
    exact ⟨c, List.mem_append_right _ hc, decide_eq_true hcx⟩

lemma filterMap_ids_eq (ps : List (String × ℚ))
    (m : List (String × SearchResult))
    (hm : ∀ x r, lookupKey m x = some r → r.chunk_id = x)
    (hsome : ∀ p ∈ ps, (lookupKey m p.1).isSome) :
    ((ps.filterMap (fun p => (lookupKey m p.1).map
      (fun r => { r with score := p.2 }))).map SearchResult.chunk_id) =
      ps.map Prod.fst := by
  induction ps with
  | nil => rfl
  | cons p rest ih =>
    rw [List.filterMap_cons]
    cases hl : lookupKey m p.1 with
    | none =>
      exfalso
      have := hsome p (List.mem_cons_self _ _)
      rw [hl] at this
      simp at this
    | some r =>
      simp only [Option.map_some', List.map_cons]
      rw [ih (fun q hq => hsome q (List.mem_cons_of_mem _ hq))]
      have : r.chunk_id = p.1 := hm p.1 r hl
      simp [this]

/-- The body of `rrf_merge`, named. -/
lemma rrf_merge_eq (V B : List SearchResult) (top_k : Nat) :
    rrf_merge V B top_k =
      takeMerge ((sortByScoreDesc (rrfScoresMap V B)).take top_k)
        (rrfResultMap V B) := rfl

lemma sorted_scores_fst_nodup (V B : List SearchResult) :
    ((sortByScoreDesc (rrfScoresMap V B)).map Prod.fst).Nodup := by
  have hperm := List.Perm.map Prod.fst (sortByScoreDesc_perm (rrfScoresMap V B))
  exact hperm.nodup_iff.mpr (rrfScoresMap_keys_nodup V B)

lemma rrf_merge_ids (V B : List SearchResult) (top_k : Nat) :
    (rrf_merge V B top_k).map SearchResult.chunk_id =
      ((sortByScoreDesc (rrfScoresMap V B)).map Prod.fst).take top_k := by
  rw [rrf_merge_eq]
  have hnd_take : ((((sortByScoreDesc (rrfScoresMap V B))).take top_k).map
      Prod.fst).Nodup := by
    rw [List.map_take]
    exact (List.take_sublist _ _).nodup (sorted_scores_fst_nodup V B)
  rw [takeMerge_filterMap _ _ hnd_take]
  rw [filterMap_ids_eq _ _
    (fun x r h => lookup_rrfResultMap_chunk_id h) ?_]
  · rw [List.map_take]
  · intro p hp
    apply rrfResultMap_lookup_isSome
    rw [← rrfScoresMap_keys_mem]
    have hp1 : p.1 ∈ ((sortByScoreDesc (rrfScoresMap V B)).take top_k).map
        Prod.fst := List.mem_map_of_mem Prod.fst hp
    rw [List.map_take] at hp1
    have hp2 := List.mem_of_mem_take hp1
    have hperm := List.Perm.map Prod.fst (sortByScoreDesc_perm (rrfScoresMap V B))
    exact hperm.mem_iff.mp hp2

/-- C10: the merged output mentions each `chunk_id` at most once, and each
output entry is (up to the fused score written into `score`) the first
occurrence of its `chunk_id` in the concatenation of the vector list
followed by the BM25 list — the scan order of the two metadata passes. -/
theorem rrf_merge_dedup_first_metadata (V B : List SearchResult)
    (top_k : Nat) :
    ((rrf_merge V B top_k).map SearchResult.chunk_id).Nodup
    ∧ ∀ r ∈ rrf_merge V B top_k, ∃ r0,
        (V ++ B).find? (fun s => s.chunk_id = r.chunk_id) = some r0 ∧
        r = { r0 with score := r.score } := by
  constructor
  · rw [rrf_merge_ids]
    exact (List.take_sublist _ _).nodup (sorted_scores_fst_nodup V B)
  · intro r hr
    rw [rrf_merge_eq] at hr
    have hnd_take : ((((sortByScoreDesc (rrfScoresMap V B))).take top_k).map
        Prod.fst).Nodup := by
      rw [List.map_take]
      exact (List.take_sublist _ _).nodup (sorted_scores_fst_nodup V B)
    rw [takeMerge_filterMap _ _ hnd_take] at hr
    obtain ⟨p, hp, hgp⟩ := List.mem_filterMap.mp hr
    obtain ⟨r0, hr0, hr0eq⟩ := Option.map_eq_some'.mp hgp
    have hid : r0.chunk_id = p.1 := lookup_rrfResultMap_chunk_id hr0
    have hrid : r.chunk_id = p.1 := by rw [← hr0eq, ← hid]
    refine ⟨r0, ?_, ?_⟩
    · rw [hrid, ← rrfResultMap_lookup]
      exact hr0
    · rw [← hr0eq]

/-- Concrete example lists for witnesses: chunk id `"a"` appears in both
lists with different metadata, `"b"` only in the vector list. -/
def exVector : List SearchResult :=
  [⟨"a", 0, "ta", "/v", "md", "sa"⟩, ⟨"b", 0, "tb", "/v", "md", "sb"⟩]

/-- BM25-side example list. -/
def exBm25 : List SearchResult :=
  [⟨"a", 0, "tx", "/b", "md", "sx"⟩]

/-- The top merged result for the example lists. -/
def exTop : SearchResult :=
  ⟨"a", rrfScore 0 + rrfScore 0, "ta", "/v", "md", "sa"⟩

lemma rrf_merge_example :
    rrf_merge exVector exBm25 10 =
      [exTop, ⟨"b", 0 + rrfScore 1, "tb", "/v", "md", "sb"⟩] := by
  norm_num [rrf_merge, scoreLoop, addScore, resultLoop, insertAbsent,
    sortByScoreDesc, insertDesc, takeMerge, removeEntry, rrfScore,
    exVector, exBm25, exTop]

/-- C10 (witness): duplicate id `"a"` across the two lists is emitted once,
with the vector list's metadata. -/
theorem rrf_merge_dedup_first_metadata_witness :
    ((rrf_merge exVector exBm25 10).map SearchResult.chunk_id).Nodup
    ∧ (∃ r0,
        (exVector ++ exBm25).find?
          (fun s => s.chunk_id = exTop.chunk_id) = some r0 ∧
        exTop = { r0 with score := exTop.score }) := by
  refine ⟨(rrf_merge_dedup_first_metadata exVector exBm25 10).1, ?_⟩
  exact (rrf_merge_dedup_first_metadata exVector exBm25 10).2 exTop
    (by rw [rrf_merge_example]; exact List.mem_cons_self _ _)

lemma rrfScoresMap_getScore (V B : List SearchResult) (x : String) :
    getScore (rrfScoresMap V B) x = contrib V 0 x + contrib B 0 x := by
  unfold rrfScoresMap
  rw [scoreLoop_getScore, scoreLoop_getScore]
  have h0 : getScore [] x = 0 := by simp [getScore, lookupKey_nil]
  rw [h0]
  ring

/-- The heart of the RRF-order property: two reciprocal contributions at
ranks less than `s + 60` outweigh the single contribution at rank `s`. -/
lemma rrf_sum_gt (r1 r2 s : Nat) (h1 : r1 < s + 60) (h2 : r2 < s + 60) :
    rrfScore s < rrfScore r1 + rrfScore r2 := by
  unfold rrfScore
  have hr1 : (0:ℚ) < 60 + (r1:ℚ) + 1 := by positivity
  have hr2 : (0:ℚ) < 60 + (r2:ℚ) + 1 := by positivity
  have hs : (0:ℚ) < 60 + (s:ℚ) + 1 := by positivity
  have hc1 : 60 + (r1:ℚ) + 1 < 2 * (60 + (s:ℚ) + 1) := by
    have : (r1:ℚ) < (s:ℚ) + 60 := by exact_mod_cast h1
    linarith
  have hc2 : 60 + (r2:ℚ) + 1 < 2 * (60 + (s:ℚ) + 1) := by
    have : (r2:ℚ) < (s:ℚ) + 60 := by exact_mod_cast h2
    linarith
  have k1 : 1 / (2 * (60 + (s:ℚ) + 1)) < 1 / (60 + (r1:ℚ) + 1) :=
    one_div_lt_one_div_of_lt hr1 hc1
  have k2 : 1 / (2 * (60 + (s:ℚ) + 1)) < 1 / (60 + (r2:ℚ) + 1) :=
    one_div_lt_one_div_of_lt hr2 hc2
  have e : 1 / (60 + (s:ℚ) + 1) =
      1 / (2 * (60 + (s:ℚ) + 1)) + 1 / (2 * (60 + (s:ℚ) + 1)) := by
    field_simp
    norm_num
  linarith

/-- C3: a chunk id appearing in both ranked lists (at ranks `r1`, `r2`)
gets a strictly greater fused score than a chunk id appearing in exactly
one list (at rank `s`), provided each of `r1`, `r2` differs from `s` by
less than 60 — and therefore, whenever the single-list chunk survives the
`top_k` cut, the dual-list chunk is also in the merged output, strictly
ahead of it. -/
theorem rrf_order (V B : List SearchResult) (top_k : Nat)
    (cid did : String) (r1 r2 s : Nat)
    (hndV : (V.map SearchResult.chunk_id).Nodup)
    (hndB : (B.map SearchResult.chunk_id).Nodup)
    (hc1 : (V.map SearchResult.chunk_id).get? r1 = some cid)
    (hc2 : (B.map SearchResult.chunk_id).get? r2 = some cid)
    (hd : ((V.map SearchResult.chunk_id).get? s = some did ∧
            did ∉ B.map SearchResult.chunk_id) ∨
          ((B.map SearchResult.chunk_id).get? s = some did ∧
            did ∉ V.map SearchResult.chunk_id))
    (h1 : r1 < s + 60) (_h2 : s < r1 + 60)
    (h3 : r2 < s + 60) (_h4 : s < r2 + 60)
    (hdo : did ∈ (rrf_merge V B top_k).map SearchResult.chunk_id) :
    getScore (rrfScoresMap V B) did < getScore (rrfScoresMap V B) cid
    ∧ cid ∈ (rrf_merge V B top_k).map SearchResult.chunk_id
    ∧ ((rrf_merge V B top_k).map SearchResult.chunk_id).indexOf cid <
      ((rrf_merge V B top_k).map SearchResult.chunk_id).indexOf did := by
  have hcmem : cid ∈ V.map SearchResult.chunk_id := List.get?_mem hc1
  have hgc : getScore (rrfScoresMap V B) cid = rrfScore r1 + rrfScore r2 := by
    rw [rrfScoresMap_getScore]
    rw [contrib_of_rank hndV hc1 0, contrib_of_rank hndB hc2 0]
    simp
  have hgd : getScore (rrfScoresMap V B) did = rrfScore s := by
    rw [rrfScoresMap_getScore]
    rcases hd with ⟨hds, hnb⟩ | ⟨hds, hnv⟩
    · rw [contrib_of_rank hndV hds 0, contrib_of_not_mem hnb 0]
      simp
    · rw [contrib_of_rank hndB hds 0, contrib_of_not_mem hnv 0]
      simp
  have hlt : getScore (rrfScoresMap V B) did < getScore (rrfScoresMap V B) cid := by
    rw [hgc, hgd]
    exact rrf_sum_gt r1 r2 s h1 h3
  refine ⟨hlt, ?_, ?_⟩
  all_goals {
    have hdmem : did ∈ V.map SearchResult.chunk_id ∨
        did ∈ B.map SearchResult.chunk_id := by
      rcases hd with ⟨hds, _⟩ | ⟨hds, _⟩
      · exact Or.inl (List.get?_mem hds)
      · exact Or.inr (List.get?_mem hds)
    have hckeys : cid ∈ keyList (rrfScoresMap V B) :=
      (rrfScoresMap_keys_mem V B cid).mpr (Or.inl hcmem)
    have hdkeys : did ∈ keyList (rrfScoresMap V B) :=
      (rrfScoresMap_keys_mem V B did).mpr hdmem
    have hpc : (cid, getScore (rrfScoresMap V B) cid) ∈
        sortByScoreDesc (rrfScoresMap V B) :=
      (sortByScoreDesc_perm _).mem_iff.mpr (lookupKey_eq_getScore hckeys)
    have hpd : (did, getScore (rrfScoresMap V B) did) ∈
        sortByScoreDesc (rrfScoresMap V B) :=
      (sortByScoreDesc_perm _).mem_iff.mpr (lookupKey_eq_getScore hdkeys)
    have hSnd := sorted_scores_fst_nodup V B
    have hidx :
        ((sortByScoreDesc (rrfScoresMap V B)).map Prod.fst).indexOf cid <
        ((sortByScoreDesc (rrfScoresMap V B)).map Prod.fst).indexOf did :=
      indexOf_lt_of_score_gt _ (sortByScoreDesc_pairwise _) hSnd cid did
        _ _ hpc hpd hlt
    have hout := rrf_merge_ids V B top_k
    rw [hout] at hdo ⊢
    have hdidx := indexOf_lt_of_mem_take hdo
    have hcin : cid ∈ (sortByScoreDesc (rrfScoresMap V B)).map Prod.fst :=
      List.mem_map_of_mem Prod.fst hpc
    have hcmem_take : cid ∈
        ((sortByScoreDesc (rrfScoresMap V B)).map Prod.fst).take top_k :=
      mem_take_of_indexOf_lt (lt_trans hidx hdidx) hcin
    first
    | exact hcmem_take
    | (rw [indexOf_take_eq hcmem_take, indexOf_take_eq hdo]; exact hidx)
  }

/-- C3 (witness): `"a"` ranked 0 in both example lists against `"b"`
ranked 1 only in the vector list. -/
theorem rrf_order_witness :
    getScore (rrfScoresMap exVector exBm25) "b" <
      getScore (rrfScoresMap exVector exBm25) "a"
    ∧ "a" ∈ (rrf_merge exVector exBm25 10).map SearchResult.chunk_id
    ∧ ((rrf_merge exVector exBm25 10).map SearchResult.chunk_id).indexOf "a" <
      ((rrf_merge exVector exBm25 10).map SearchResult.chunk_id).indexOf "b" :=
  rrf_order exVector exBm25 10 "a" "b" 0 0 1
    (by decide) (by decide) (by decide) (by decide)
    (Or.inl ⟨by decide, by decide⟩)
    (by decide) (by decide) (by decide) (by decide)
    (by rw [rrf_merge_example]; decide)

/-! ### Tool-call dispatch -/

/-- The tool name string `handle_tools_call` extracts from `params`. -/
def requestToolName (p : Json) : String :=
  ((p.get "name").bind Json.asStr).getD ""

/-- The `arguments` value `handle_tools_call` extracts from `params`. -/
def requestArguments (p : Json) : Json :=
  (p.get "arguments").getD (Json.obj [])

lemma handle_tools_call_none
    (exec : ToolName → Json → Except String ToolResult) (id : Option Json) :
    handle_tools_call exec id none =
      some (JsonRpcResponse.mkError id INVALID_PARAMS "Missing params") := rfl

lemma handle_tools_call_some
    (exec : ToolName → Json → Except String ToolResult) (id : Option Json)
    (p : Json) :
    handle_tools_call exec id (some p) =
      match ToolName.parse (requestToolName p) with
      | some ToolName.Search =>
        some (match exec ToolName.Search (requestArguments p) with
          | Except.ok tr => JsonRpcResponse.success id (toolResultToJson tr)
          | Except.error e =>
            JsonRpcResponse.success id
              (toolResultToJson (ToolResult.mkError ("Error: " ++ e))))
      | some ToolName.Get =>
        some (match exec ToolName.Get (requestArguments p) with
          | Except.ok tr => JsonRpcResponse.success id (toolResultToJson tr)
          | Except.error e =>
            JsonRpcResponse.success id
              (toolResultToJson (ToolResult.mkError ("Error: " ++ e))))
      | some ToolName.GetProjectInfo => none
      | none =>
        some (JsonRpcResponse.mkError id METHOD_NOT_FOUND
          ("Unknown tool: " ++ requestToolName p)) := rfl

/-- C7: tool-execution failures come back as a *successful* JSON-RPC
response carrying the `{content: [{type: "text", text: …}], isError: true}`
envelope, and a JSON-RPC error object is produced only for a missing
`params` (code `-32602`) or an unparsable tool name (code `-32601`). -/
theorem tools_call_error_envelope
    (exec : ToolName → Json → Except String ToolResult) (id : Option Json) :
    (handle_tools_call exec id none =
      some (JsonRpcResponse.mkError id INVALID_PARAMS "Missing params"))
    ∧ (∀ p, ToolName.parse (requestToolName p) = none →
        handle_tools_call exec id (some p) =
          some (JsonRpcResponse.mkError id METHOD_NOT_FOUND
            ("Unknown tool: " ++ requestToolName p)))
    ∧ (∀ p e tn, ToolName.parse (requestToolName p) = some tn →
        (tn = ToolName.Search ∨ tn = ToolName.Get) →
        exec tn (requestArguments p) = Except.error e →
        handle_tools_call exec id (some p) =
          some (JsonRpcResponse.success id
            (toolResultToJson (ToolResult.mkError ("Error: " ++ e)))))
    ∧ (∀ msg, toolResultToJson (ToolResult.mkError msg) =
        Json.obj
          [("content", Json.arr [Json.obj
            [("type", Json.str "text"), ("text", Json.str msg)]]),
           ("isError", Json.bool true)])
    ∧ (∀ params resp err, handle_tools_call exec id params = some resp →
        resp.error = some err →
        (params = none ∧ err.code = INVALID_PARAMS) ∨
        (∃ p, params = some p ∧
          ToolName.parse (requestToolName p) = none ∧
          err.code = METHOD_NOT_FOUND)) := by
  refine ⟨rfl, ?_, ?_, fun msg => rfl, ?_⟩
  · intro p hp
    rw [handle_tools_call_some, hp]
  · intro p e tn hp htn he
    rw [handle_tools_call_some, hp]
    rcases htn with h | h <;> subst h <;> rw [he]
  · intro params resp err hresp herr
    cases params with
    | none =>
      rw [handle_tools_call_none] at hresp
      cases hresp
      left
      refine ⟨rfl, ?_⟩
      injection herr with h
      rw [← h]
    | some p =>
      rw [handle_tools_call_some] at hresp
      cases hparse : ToolName.parse (requestToolName p) with
      | none =>
        rw [hparse] at hresp
        cases hresp
        right
        refine ⟨p, rfl, hparse, ?_⟩
        injection herr with h
        rw [← h]
      | some tn =>
        rw [hparse] at hresp
        cases tn with
        | Search =>
          exfalso
          cases hexec : exec ToolName.Search (requestArguments p) with
          | ok tr =>
            rw [hexec] at hresp
            cases hresp
            simp [JsonRpcResponse.success] at herr
          | error e =>
            rw [hexec] at hresp
            cases hresp
            simp [JsonRpcResponse.success] at herr
        | Get =>
          exfalso
          cases hexec : exec ToolName.Get (requestArguments p) with
          | ok tr =>
            rw [hexec] at hresp
            cases hresp
            simp [JsonRpcResponse.success] at herr
          | error e =>
            rw [hexec] at hresp
            cases hresp
            simp [JsonRpcResponse.success] at herr
        | GetProjectInfo => cases hresp

/-- C7 (witness): a failing `search` execution surfaces as a successful
response with `isError: true`; an unknown tool name and a missing `params`
yield the two JSON-RPC error codes. -/
theorem tools_call_error_envelope_witness :
    (handle_tools_call (fun _ _ => Except.error "boom") none none =
      some (JsonRpcResponse.mkError none INVALID_PARAMS "Missing params"))
    ∧ (handle_tools_call (fun _ _ => Except.error "boom") none
        (some (Json.obj [("name", Json.str "nope")])) =
      some (JsonRpcResponse.mkError none METHOD_NOT_FOUND
        ("Unknown tool: " ++
          requestToolName (Json.obj [("name", Json.str "nope")]))))
    ∧ (handle_tools_call (fun _ _ => Except.error "boom") none
        (some (Json.obj [("name", Json.str "search")])) =
      some (JsonRpcResponse.success none
        (toolResultToJson (ToolResult.mkError ("Error: " ++ "boom"))))) := by
  refine ⟨(tools_call_error_envelope (fun _ _ => Except.error "boom") none).1,
    ?_, ?_⟩
  · exact (tools_call_error_envelope (fun _ _ => Except.error "boom")
      none).2.1 (Json.obj [("name", Json.str "nope")]) rfl
  · exact (tools_call_error_envelope (fun _ _ => Except.error "boom")
      none).2.2.1 (Json.obj [("name", Json.str "search")]) "boom"
      ToolName.Search rfl (Or.inl rfl) rfl

/-! ### Ingest: lexical-store coverage and state recording -/

lemma chunksOf20Go_flatten :
    ∀ (fuel : Nat) (l : List ChunkPayload), l.length ≤ fuel →
      (chunksOf20Go fuel l).flatten = l := by
  intro fuel
  induction fuel with
  | zero =>
    intro l hl
    have : l = [] := List.eq_nil_of_length_eq_zero (by omega)
    subst this
    rfl
  | succ f ih =>
    intro l hl
    cases l with
    | nil => rfl
    | cons a t =>
      show ((a :: t).take 20 :: chunksOf20Go f ((a :: t).drop 20)).flatten = _
      rw [List.flatten_cons, ih ((a :: t).drop 20) (by
        rw [List.length_drop]
        simp only [List.length_cons] at hl ⊢
        omega)]
      exact List.take_append_drop 20 (a :: t)

lemma chunk_sub_batches_flatten (l : List ChunkPayload) :
    (chunk_sub_batches l).flatten = l :=
  chunksOf20Go_flatten l.length l (le_refl _)

lemma embedLoop_subset_aux (subs : List (List ChunkPayload))
    (embedOk : List ChunkPayload → Bool) :
    ∀ (acc : List ChunkPayload) (c : ChunkPayload),
      c ∈ subs.foldl (fun acc sb => if embedOk sb then acc ++ sb else acc) acc →
      c ∈ acc ∨ c ∈ subs.flatten := by
  induction subs with
  | nil => intro acc c h; exact Or.inl h
  | cons sb rest ih =>
    intro acc c h
    rw [List.foldl_cons] at h
    rcases ih _ c h with h1 | h1
    · by_cases hok : embedOk sb
      · rw [if_pos hok] at h1
        rcases List.mem_append.mp h1 with h2 | h2
        · exact Or.inl h2
        · exact Or.inr (by rw [List.flatten_cons]; exact List.mem_append_left _ h2)
      · rw [if_neg hok] at h1
        exact Or.inl h1
    · exact Or.inr (by rw [List.flatten_cons]; exact List.mem_append_right _ h1)

lemma embedLoop_subset {subs : List (List ChunkPayload)}
    {embedOk : List ChunkPayload → Bool} {c : ChunkPayload}
    (h : c ∈ embedLoop subs embedOk) : c ∈ subs.flatten := by
  rcases embedLoop_subset_aux subs embedOk [] c h with h1 | h1
  · simp at h1
  · exact h1

/-- C1 (amended): in a batch where at least one embedding sub-batch
succeeds and the lexical write succeeds, **all** batch chunks — including
those of failed sub-batches — end up in the lexical store; and whenever
the lexical write succeeds, the batch preserves the invariant that every
vector-store chunk id also has a lexical-store document. -/
theorem run_batch_lexical (st : BatchStores) (all_chunks : List ChunkPayload)
    (embedOk : List ChunkPayload → Bool) (upsertOk indexOk : Bool)
    (hinv : ∀ id ∈ st.vector, id ∈ st.lex)
    (hidx : indexOk = true) :
    ((embedLoop (chunk_sub_batches all_chunks) embedOk).isEmpty = false →
      ∀ c ∈ all_chunks, c.chunk_id ∈
        (run_batch st all_chunks embedOk upsertOk indexOk).lex)
    ∧ (∀ id ∈ (run_batch st all_chunks embedOk upsertOk indexOk).vector,
        id ∈ (run_batch st all_chunks embedOk upsertOk indexOk).lex) := by
  subst hidx
  unfold run_batch
  by_cases h0 : all_chunks.isEmpty
  · rw [List.isEmpty_iff] at h0
    subst h0
    simp only [List.isEmpty_nil, if_true]
    exact ⟨fun _ c hc => absurd hc (List.not_mem_nil c), hinv⟩
  · simp only [h0, Bool.false_eq_true, if_false]
    by_cases h1 : (embedLoop (chunk_sub_batches all_chunks) embedOk).isEmpty
    · rw [if_pos h1]
      refine ⟨fun hne => absurd h1 (by rw [hne]; simp), hinv⟩
    · rw [if_neg h1]
      constructor
      · intro _ c hc
        simp only [if_pos rfl]
        exact List.mem_append_right _
          (List.mem_map_of_mem ChunkPayload.chunk_id hc)
      · intro id hid
        simp only [if_pos rfl]
        by_cases hup : upsertOk
        · rw [if_pos hup] at hid
          rcases List.mem_append.mp hid with h2 | h2
          · exact List.mem_append_left _ (hinv id h2)
          · obtain ⟨c, hc, hcid⟩ := List.mem_map.mp h2
            have hcall : c ∈ all_chunks := by
              have := embedLoop_subset hc
              rwa [chunk_sub_batches_flatten] at this
            exact List.mem_append_right _
              (hcid ▸ List.mem_map_of_mem ChunkPayload.chunk_id hcall)
        · rw [if_neg hup] at hid
          exact List.mem_append_left _ (hinv id hid)

/-- A one-chunk example payload. -/
def exChunk : ChunkPayload :=
  ⟨"c1", "/docs/f.md", "md", ['T'], 0, ['x'], "2026-01-01T00:00:00Z"⟩

/-- C1 (counterexample): when every embedding sub-batch of a batch fails,
the whole batch is skipped before the lexical write (`continue` at
`ingest.rs` line 168–171), so none of its chunks reach the lexical store
even though the lexical store itself is healthy. -/
theorem run_batch_counterexample :
    run_batch ⟨[], []⟩ [exChunk] (fun _ => false) true true = ⟨[], []⟩
    ∧ exChunk.chunk_id ∉
        (run_batch ⟨[], []⟩ [exChunk] (fun _ => false) true true).lex := by
  refine ⟨rfl, ?_⟩
  rw [show run_batch ⟨[], []⟩ [exChunk] (fun _ => false) true true =
    ⟨[], []⟩ from rfl]
  exact List.not_mem_nil _

/-- C1 (witness): a successfully embedding batch indexes its chunk
lexically and preserves the vector ⊆ lexical invariant. -/
theorem run_batch_lexical_witness :
    ((embedLoop (chunk_sub_batches [exChunk]) (fun _ => true)).isEmpty = false →
      ∀ c ∈ [exChunk], c.chunk_id ∈
        (run_batch ⟨["v0"], ["v0"]⟩ [exChunk] (fun _ => true) true true).lex)
    ∧ (∀ id ∈ (run_batch ⟨["v0"], ["v0"]⟩ [exChunk] (fun _ => true) true true).vector,
        id ∈ (run_batch ⟨["v0"], ["v0"]⟩ [exChunk] (fun _ => true) true true).lex) :=
  run_batch_lexical ⟨["v0"], ["v0"]⟩ [exChunk] (fun _ => true) true true
    (by decide) rfl

lemma processBatchFiles_processed_mem
    (outcomes : List (String × Except Unit (List ChunkPayload)))
    (path : String) :
    ∀ (acc : List ChunkPayload × List String × Nat),
      path ∈ (outcomes.foldl
        (fun acc o =>
          match o.2 with
          | Except.ok chunks => (acc.1 ++ chunks, acc.2.1 ++ [o.1], acc.2.2)
          | Except.error _ => (acc.1, acc.2.1, acc.2.2 + 1)) acc).2.1 →
      path ∈ acc.2.1 ∨ ∃ chunks, (path, Except.ok chunks) ∈ outcomes := by
  induction outcomes with
  | nil => intro acc h; exact Or.inl h
  | cons o rest ih =>
    intro acc h
    rw [List.foldl_cons] at h
    cases ho : o.2 with
    | ok chunks =>
      rw [ho] at h
      rcases ih _ h with h1 | ⟨cs, h1⟩
      · rcases List.mem_append.mp h1 with h2 | h2
        · exact Or.inl h2
        · right
          refine ⟨chunks, ?_⟩
          rw [List.mem_singleton] at h2
          have : o = (path, Except.ok chunks) := by
            rw [Prod.ext_iff]
            exact ⟨h2.symm, ho⟩
          rw [← this]
          exact List.mem_cons_self _ _
      · exact Or.inr ⟨cs, List.mem_cons_of_mem _ h1⟩
    | error e =>
      rw [ho] at h
      rcases ih _ h with h1 | ⟨cs, h1⟩
      · exact Or.inl h1
      · exact Or.inr ⟨cs, List.mem_cons_of_mem _ h1⟩

lemma insertState_lookup_ne (state : List (String × String))
    (k m path : String) (hne : ¬ k = path) :
    lookupKey (insertState state k m) path = lookupKey state path := by
  induction state with
  | nil =>
    show lookupKey [(k, m)] path = _
    rw [lookupKey_cons, if_neg hne]
  | cons q rest ih =>
    obtain ⟨k', v'⟩ := q
    show lookupKey (if k' = k then (k', m) :: rest
      else (k', v') :: insertState rest k m) path = _
    by_cases hk : k' = k
    · rw [if_pos hk, lookupKey_cons, lookupKey_cons,
        if_neg (fun he => hne (hk.symm.trans he)),
        if_neg (fun he => hne (hk.symm.trans he))]
    · rw [if_neg hk, lookupKey_cons, lookupKey_cons]
      by_cases hx : k' = path
      · rw [if_pos hx, if_pos hx]
      · rw [if_neg hx, if_neg hx]
        exact ih

lemma updateState_lookup_not_mem (processed : List String) :
    ∀ (state : List (String × String)) (mtime : String → Option String)
      (path : String), path ∉ processed →
      lookupKey (updateState state processed mtime) path =
        lookupKey state path := by
  induction processed with
  | nil => intro state mtime path _; rfl
  | cons q rest ih =>
    intro state mtime path hnm
    simp only [List.mem_cons] at hnm
    push_neg at hnm
    show lookupKey (updateState
      (match mtime q with
       | some m => insertState state q m
       | none => state) rest mtime) path = _
    rw [ih _ mtime path hnm.2]
    cases hm : mtime q with
    | some m =>
      exact insertState_lookup_ne state q m path (fun he => hnm.1 he.symm)
    | none => rfl

/-- C6 (amended): a per-file *error* — unreadable file, converter failure,
or empty converter output — leaves the file out of `processed_files` and
out of the saved state, so it is retried on the next run.  An empty
converter output is such an error, but an empty *plain-text* file is not:
reading it succeeds and yields zero chunks (see the counterexample). -/
theorem per_file_error_not_recorded
    (content : List Char) (hcontent : trimChars content = [])
    (file_path ext : String) (file_name : List Char) (cs ov : Nat)
    (idGen : Nat → String) (now : String)
    (outcomes : List (String × Except Unit (List ChunkPayload)))
    (path : String)
    (hout : ∀ chunks, (path, Except.ok chunks) ∉ outcomes)
    (state : List (String × String)) (mtime : String → Option String) :
    process_file true (Except.ok content) file_path ext file_name cs ov
      idGen now = some (Except.error ())
    ∧ path ∉ (processBatchFiles outcomes).2.1
    ∧ lookupKey (updateState state (processBatchFiles outcomes).2.1 mtime)
        path = lookupKey state path := by
  have hnm : path ∉ (processBatchFiles outcomes).2.1 := by
    intro hmem
    rcases processBatchFiles_processed_mem outcomes path _ hmem with h1 | ⟨cs', h1⟩
    · simp at h1
    · exact hout cs' h1
  refine ⟨?_, hnm, updateState_lookup_not_mem _ state mtime path hnm⟩
  unfold process_file convert_with_markitdown
  rw [if_pos rfl]
  simp only [hcontent, List.isEmpty_nil, if_true]

/-- C6 (witness): a converter outcome that is whitespace-only is a
per-file error, and an erroring file in a batch is not recorded. -/
theorem per_file_error_not_recorded_witness :
    process_file true (Except.ok [' ']) "/docs/r.pdf" "pdf" "r.pdf".toList
      1000 200 (fun i => "id" ++ toString i) "2026-01-01T00:00:00Z" =
        some (Except.error ())
    ∧ "/docs/r.pdf" ∉
        (processBatchFiles [("/docs/r.pdf", Except.error ())]).2.1
    ∧ lookupKey (updateState [("/docs/old.md", "m0")]
        (processBatchFiles [("/docs/r.pdf", Except.error ())]).2.1
        (fun _ => some "m1")) "/docs/r.pdf" =
      lookupKey [("/docs/old.md", "m0")] "/docs/r.pdf" :=
  per_file_error_not_recorded [' '] (by decide) "/docs/r.pdf" "pdf"
    ("r.pdf".toList) 1000 200 (fun i => "id" ++ toString i)
    "2026-01-01T00:00:00Z" [("/docs/r.pdf", Except.error ())] "/docs/r.pdf"
    (by intro chunks h; simp at h) [("/docs/old.md", "m0")]
    (fun _ => some "m1")

/-- C6 (counterexample): a plain-text file whose content reads back as the
empty string is *not* skipped: `process_file` succeeds with zero chunks,
the file lands in `processed_files`, and the ingest state records it — so
it will not be retried.  This refutes the claim for the plain-text case. -/
theorem empty_text_file_recorded :
    process_file false (Except.ok []) "/docs/a.txt" "txt" "a.txt".toList
      1000 200 (fun i => "id" ++ toString i) "2026-01-01T00:00:00Z" =
        some (Except.ok [])
    ∧ (processBatchFiles [("/docs/a.txt", Except.ok [])]).2.1 =
        ["/docs/a.txt"]
    ∧ lookupKey (updateState [] ["/docs/a.txt"] (fun _ => some "m1"))
        "/docs/a.txt" = some "m1" := by
  refine ⟨rfl, rfl, ?_⟩
  show lookupKey (insertState [] "/docs/a.txt" "m1") "/docs/a.txt" = _
  rw [show insertState [] "/docs/a.txt" "m1" = [("/docs/a.txt", "m1")] from rfl,
    lookupKey_cons, if_pos rfl]

end HybridSearch
